import Mathlib

/-!
Verification of the fetch-and-reconcile pipeline of the AI-school-recommendation
crawler.  The Python source (src/crawler/...) is shallowly embedded: Python
strings are Lean `String`s, Python `int` is `Int`, stateful Supabase calls are
explicit state passing over a `Store` value, fallible operations return
`Option` / a `Bool` success flag.  Machine-level concerns (real HTTP, real
time) are abstracted into explicit environment parameters.
-/

namespace Crawler

/-! ## Python string primitives

`pyIsSpace` models the character class stripped by Python's `str.strip()`
(ASCII whitespace; the crawler only ever handles ASCII rank strings). -/

def pyIsSpace (c : Char) : Bool :=
  c = ' ' || c = '\t' || c = '\n' || c = '\r' || c = '\x0b' || c = '\x0c'

/-- Remove trailing characters satisfying `pyIsSpace` (right strip). -/
def stripR : List Char → List Char
  | [] => []
  | c :: rest =>
    let r := stripR rest
    if r = [] && pyIsSpace c then [] else c :: r

/-- Python `str.strip()` on the underlying character list. -/
def pyStripL (l : List Char) : List Char :=
  stripR (l.dropWhile pyIsSpace)

/-- Python `str.strip()`. -/
def pyStrip (s : String) : String :=
  ⟨pyStripL s.data⟩

/-- digit character for a value `< 10` -/
def digitChar : Nat → Char
  | 0 => '0' | 1 => '1' | 2 => '2' | 3 => '3' | 4 => '4'
  | 5 => '5' | 6 => '6' | 7 => '7' | 8 => '8' | _ => '9'

def digitVal (c : Char) : Nat := c.toNat - 48

/-- Valid tail of a Python integer literal body: digits with single
underscores allowed between digits (`int("1_0") = 10`). -/
def usRest : List Char → Bool
  | [] => true
  | c :: t =>
    if c = '_' then
      match t with
      | [] => false
      | c2 :: t2 => c2.isDigit && usRest (c2 :: t2)
    else c.isDigit && usRest t

/-- Digit body of a Python integer literal: nonempty, starts with a digit,
underscores only between digits. -/
def usDigits : List Char → Bool
  | [] => false
  | c :: rest => c.isDigit && usRest rest

/-- Numeric value of a digit body (underscores skipped). -/
def digitsVal (l : List Char) : Nat :=
  (l.filter (fun c => c ≠ '_')).foldl (fun a c => a * 10 + digitVal c) 0

/-- `int` conversion on an already-stripped character list: optional sign,
then a digit body; `none` models `ValueError`. -/
def pyIntL (l : List Char) : Option Int :=
  match l with
  | [] => Option.none
  | c :: rest =>
    if c = '+' then
      if usDigits rest then some (Int.ofNat (digitsVal rest)) else Option.none
    else if c = '-' then
      if usDigits rest then some (-(Int.ofNat (digitsVal rest))) else Option.none
    else
      if usDigits (c :: rest) then some (Int.ofNat (digitsVal (c :: rest))) else Option.none

/-- Python `int(s)` on a string: strips whitespace, optional sign, then a
digit body; `none` models `ValueError`.  (ASCII digits; the crawler's rank
strings are ASCII.) -/
def pyInt (s : String) : Option Int :=
  pyIntL (pyStripL s.data)

/-- Decimal digits of a natural number, with explicit recursion fuel so the
definition is structurally recursive (kernel-reducible).  `natReprL` below
always supplies enough fuel. -/
def natReprAux : Nat → Nat → List Char
  | 0, _ => []
  | fuel + 1, n =>
    if n < 10 then [digitChar n]
    else natReprAux fuel (n / 10) ++ [digitChar (n % 10)]

/-- Decimal digits of a natural number (Python `str(n)` for `n ≥ 0`). -/
def natReprL (n : Nat) : List Char := natReprAux (n + 1) n

def natRepr (n : Nat) : String := ⟨natReprL n⟩

/-- Python `str(n)` for an `int` value (f-string formatting of integers). -/
def intRepr (n : Int) : String :=
  match n with
  | .ofNat m => natRepr m
  | .negSucc m => "-" ++ natRepr (m + 1)

/-! ## Python values

The reconciliation engine's dictionaries hold heterogeneous Python values.
`Val.none` is Python `None`; floats are carried as rationals (exact for the
literal `0.0` the code uses). -/

inductive Val where
  | none
  | vStr (s : String)
  | vInt (n : Int)
  | vRat (q : ℚ)
  | vBool (b : Bool)
  | dnil
  | dcons (k : String) (v : Val) (rest : Val)
  | lnil
  | lcons (v : Val) (rest : Val)
deriving DecidableEq, Repr

/-!
A Python `dict` value (such as `raw_data`) is represented as a `dcons` chain
ending in `dnil`, in insertion order; a Python `list` as an `lcons` chain
ending in `lnil`.  (The chain encoding keeps `Val` a plain inductive so that
equality is kernel-decidable.)  Chains whose tail is not `dnil`/`lnil` never
arise from the embedded operations.
-/

/-- Is the value a Python `dict` (`isinstance(v, dict)`)? -/
def isDict : Val → Bool
  | .dnil => true
  | .dcons _ _ _ => true
  | _ => false

/-- `d.get(k)` on a dict value (`None` when absent). -/
def vdGet : Val → String → Val
  | .dcons k v rest, key => if k = key then v else vdGet rest key
  | _, _ => .none

/-- `d[k] = v` on a dict value: replace in place, else append (Python
insertion-order semantics). -/
def vdSet : Val → String → Val → Val
  | .dcons k v rest, key, nv =>
    if k = key then .dcons k nv rest else .dcons k v (vdSet rest key nv)
  | _, key, nv => .dcons key nv .dnil

/-- `{**old, **new}`: entries of `new` written over `old` in order. -/
def vdMerge (old : Val) : Val → Val
  | .dcons k v rest => vdMerge (vdSet old k v) rest
  | _ => old

/-- conditionally set a dict key from an optional value -/
def vdSetOpt (d : Val) (k : String) (v : Option Val) : Val :=
  match v with
  | some v => vdSet d k v
  | Option.none => d

/-- Python `str(v)`.  Containers never reach `str` in the code paths under
verification; their textual form is abstracted to an opaque tag.  Floats are
rendered exactly for integral values (the only numeric literals the crawler
passes). -/
def pyStr (v : Val) : String :=
  match v with
  | .none => "None"
  | .vStr s => s
  | .vInt n => intRepr n
  | .vRat q => if q.den = 1 then intRepr q.num ++ ".0" else intRepr q.num ++ "/" ++ natRepr q.den
  | .vBool b => if b then "True" else "False"
  | _ => "PyObject"

/-- Python truthiness. -/
def pyTruthy (v : Val) : Bool :=
  match v with
  | .none => false
  | .vStr s => decide (s ≠ "")
  | .vInt n => decide (n ≠ 0)
  | .vRat q => decide (q ≠ 0)
  | .vBool b => b
  | .dnil => false
  | .dcons _ _ _ => true
  | .lnil => false
  | .lcons _ _ => true

/-- Python `a or b`. -/
def pyOr (a b : Val) : Val := if pyTruthy a then a else b

/-! ## Rank normalizer — `SupabaseManager._normalize_qs_ranking`
(src/crawler/storage/supabase_manager.py lines 66-112) -/

def startsEq (s : String) : Bool :=
  match s.data with
  | c :: _ => c = '='
  | [] => false

/-- last character of a list -/
def lastChar : List Char → Option Char
  | [] => Option.none
  | [c] => some c
  | _ :: c :: t => lastChar (c :: t)

def endsPlus (s : String) : Bool :=
  match lastChar s.data with
  | some c => c = '+'
  | Option.none => false

/-- membership of `'-'` in a character list -/
def hasHyphen : List Char → Bool
  | [] => false
  | c :: t => c = '-' || hasHyphen t

/-- `"-" in s` -/
def containsHyphen (s : String) : Bool := hasHyphen s.data

/-- `s[1:]` -/
def strDrop1 (s : String) : String := ⟨s.data.drop 1⟩

/-- `s[:-1]` -/
def strDropLast (s : String) : String := ⟨s.data.dropLast⟩

/-- `s.split("-", 1)` when `"-" in s`: characters before / after the first
hyphen. -/
def splitHy : List Char → List Char × List Char
  | [] => ([], [])
  | c :: rest =>
    if c = '-' then ([], rest)
    else
      let p := splitHy rest
      (c :: p.1, p.2)

/-- Branches of `_normalize_qs_ranking` acting on the stripped, nonempty
string `s`. -/
def normStr (s : String) : Option String × Option Int × Option Int :=
  if startsEq s then
    match pyInt (pyStrip (strDrop1 s)) with
    | some n => (some ("=" ++ intRepr n), some n, some n)
    | Option.none => (some s, Option.none, Option.none)
  else if endsPlus s then
    match pyInt (pyStrip (strDropLast s)) with
    | some n => (some (intRepr n ++ "+"), some n, Option.none)
    | Option.none => (some s, Option.none, Option.none)
  else if containsHyphen s then
    match pyInt (pyStrip ⟨(splitHy s.data).1⟩), pyInt (pyStrip ⟨(splitHy s.data).2⟩) with
    | some amin, some bmax =>
      (some (intRepr amin ++ "-" ++ intRepr bmax), some amin, some bmax)
    | _, _ => (some s, Option.none, Option.none)
  else
    match pyInt s with
    | some n => (some (intRepr n), some n, some n)
    | Option.none => (some s, Option.none, Option.none)

/-- `_normalize_qs_ranking(val)`: returns `(display, min_int, max_int)`. -/
def _normalize_qs_ranking (val : Val) : Option String × Option Int × Option Int :=
  if val = .none then (Option.none, Option.none, Option.none)
  else
    let s := pyStrip (pyStr val)
    if s = "" then (Option.none, Option.none, Option.none) else normStr s

/-- `SupabaseManager._is_empty_value` (supabase_manager.py lines 114-119). -/
def _is_empty_value (v : Val) : Bool :=
  match v with
  | .none => true
  | .vStr s => pyStrip s = ""
  | _ => false

/-! ## Top-N script normalizer — `crawl_qs_topN.py` lines 41-71 -/

/-- Python `str.isdigit()` (ASCII digits). -/
def pyIsDigitStr (s : String) : Bool :=
  !s.data.isEmpty && s.data.all Char.isDigit

/-- `s.replace("=", "")`. -/
def pyReplaceEq (s : String) : String := ⟨s.data.filter (fun c => c ≠ '=')⟩

/-- `_parse_rank_bounds(rank_str)`. -/
def _parse_rank_bounds (v : Val) : Option Int × Option Int :=
  if v = .none then (Option.none, Option.none)
  else
    let s := pyReplaceEq (pyStrip (pyStr v))
    if s = "" then (Option.none, Option.none)
    else if pyIsDigitStr s then
      (some (Int.ofNat (digitsVal s.data)), some (Int.ofNat (digitsVal s.data)))
    else if containsHyphen s then
      let a := pyStrip ⟨(splitHy s.data).1⟩
      let b := pyStrip ⟨(splitHy s.data).2⟩
      if pyIsDigitStr a && pyIsDigitStr b then
        (some (Int.ofNat (digitsVal a.data)), some (Int.ofNat (digitsVal b.data)))
      else (Option.none, Option.none)
    else (Option.none, Option.none)

/-- `_normalize_rank_to_int(rank_str)`: stores the upper bound. -/
def _normalize_rank_to_int (v : Val) : Option Int :=
  match _parse_rank_bounds v with
  | (some _, some hi) => some hi
  | _ => Option.none

/-! ## Top-level Python dictionaries

Candidate records, row field maps and staged patches are Python dicts with
string keys; they are embedded as association lists in insertion order. -/

def PyDict : Type := List (String × Val)

instance : DecidableEq PyDict := by unfold PyDict; infer_instance

instance : Repr PyDict := by unfold PyDict; infer_instance

instance : Inhabited PyDict := ⟨([] : List (String × Val))⟩

/-- `d.get(k)` (`None` when absent). -/
def dget : PyDict → String → Val
  | [], _ => .none
  | (k', v) :: t, k => if k' = k then v else dget t k

/-- `k in d` -/
def dmem : PyDict → String → Bool
  | [], _ => false
  | (k', _) :: t, k => k' = k || dmem t k

/-- `d[k] = v`: replace in place, else append. -/
def dset : PyDict → String → Val → PyDict
  | [], k, v => [(k, v)]
  | (k', v') :: t, k, v => if k' = k then (k, v) :: t else (k', v') :: dset t k v

/-- `d.pop(k, None)`'s effect on the dict. -/
def dremove (d : PyDict) (k : String) : PyDict :=
  d.filter (fun kv => decide (kv.1 ≠ k))

/-- `{k: v for k, v in d.items() if v is not None}` -/
def dfilterNotNone (d : PyDict) : PyDict :=
  d.filter (fun kv => decide (kv.2 ≠ Val.none))

/-- `{**old, **new}` / applying a PATCH body to a row's columns. -/
def dmerge (old new : PyDict) : PyDict :=
  new.foldl (fun acc kv => dset acc kv.1 kv.2) old

/-! ## Record store

One `unreviewed_schools` table reached over PostgREST.  Reads are modelled as
always succeeding; write failures (non-2xx on POST/PATCH) are injected through
the `insertFails` / `patchFails` environment flags.  Row ids are store-assigned
naturals (standing in for the UUIDs Supabase assigns, which are always
truthy). -/

structure Row where
  id : Nat
  fields : PyDict
deriving DecidableEq, Repr, Inhabited

structure Store where
  rows : List Row
  nextId : Nat
  insertFails : Bool
  patchFails : Bool
deriving DecidableEq, Repr

/-- `a.isPrefixOf b` on character lists. -/
def isPrefixB : List Char → List Char → Bool
  | [], _ => true
  | _ :: _, [] => false
  | a :: as, b :: bs => a = b && isPrefixB as bs

/-- substring test: does `pat` occur inside the second list? -/
def isSubB (pat : List Char) : List Char → Bool
  | [] => pat.isEmpty
  | c :: t => isPrefixB pat (c :: t) || isSubB pat t

/-- PostgREST `ilike.*pat*`: case-insensitive substring containment. -/
def containsCI (hay pat : String) : Bool :=
  isSubB (pat.data.map Char.toLower) (hay.data.map Char.toLower)

def rowMatchesW (w : String) (r : Row) : Bool :=
  match dget r.fields "website_url" with
  | .vStr h => containsCI h w
  | _ => false

def rowMatchesN (n : String) (r : Row) : Bool :=
  match dget r.fields "name" with
  | .vStr h => containsCI h n
  | _ => false

/-- `get_unreviewed_school_by_match` (supabase_manager.py lines 363-398):
id lookup, then website-substring, then name-substring; first response row
wins. -/
def get_unreviewed_school_by_match (st : Store) (school_id : Option Nat)
    (website_url name : Option String) : Option Row :=
  match (match school_id with
         | some i => st.rows.find? (fun r => r.id == i)
         | Option.none => Option.none) with
  | some r => some r
  | Option.none =>
    match (match website_url with
           | some w => st.rows.find? (rowMatchesW w)
           | Option.none => Option.none) with
    | some r => some r
    | Option.none =>
      match name with
      | some n => st.rows.find? (rowMatchesN n)
      | Option.none => Option.none

/-- `(raw or {})` followed by the three `raw[...] = ...` assignments for the
rank display/bounds.  `none` models the `TypeError` raised when item-assigning
into a truthy non-dict. -/
def augmentRaw (v : Val) (disp : Option String) (rmin rmax : Option Int) : Option Val :=
  let base := pyOr v .dnil
  if isDict base then
    some (vdSetOpt (vdSetOpt (vdSetOpt base
      "qs_ranking_display" (disp.map .vStr))
      "qs_rank_min" (rmin.map .vInt))
      "qs_rank_max" (rmax.map .vInt))
  else
    if disp = Option.none ∧ rmin = Option.none ∧ rmax = Option.none then some base
    else Option.none

/-- `patch_unreviewed_school` (supabase_manager.py lines 400-451). Returns the
success flag and the store after the call; an exception inside the body (the
`{**old_raw, **new_raw}` on a non-mapping) is caught and yields `false` with
the store untouched. -/
def patch_unreviewed_school (st : Store) (school_id : Nat) (updates : PyDict) :
    Bool × Store :=
  if updates = [] then (true, st)
  else
    match get_unreviewed_school_by_match st (some school_id) Option.none Option.none with
    | Option.none => (false, st)
    | some current =>
      let payload := dfilterNotNone updates
      let payload? : Option PyDict :=
        if dmem payload "qs_ranking" then
          let r := _normalize_qs_ranking (dget payload "qs_ranking")
          let payload1 :=
            match r.2.1 with
            | some m => dset payload "qs_ranking" (.vInt m)
            | Option.none => dremove payload "qs_ranking"
          let oldr := pyOr (dget current.fields "raw_data") .dnil
          let newr := pyOr (dget updates "raw_data") .dnil
          if isDict oldr && isDict newr then
            let merged := vdSetOpt (vdSetOpt (vdSetOpt (vdMerge oldr newr)
              "qs_ranking_display" (r.1.map .vStr))
              "qs_rank_min" (r.2.1.map .vInt))
              "qs_rank_max" (r.2.2.map .vInt)
            some (dset payload1 "raw_data" merged)
          else Option.none
        else
          if dmem updates "raw_data" then
            let oldr := pyOr (dget current.fields "raw_data") .dnil
            let newr := pyOr (dget updates "raw_data") .dnil
            if isDict oldr && isDict newr then
              some (dset payload "raw_data" (vdMerge oldr newr))
            else some payload
          else some payload
      match payload? with
      | Option.none => (false, st)
      | some pl =>
        if st.patchFails then (false, st)
        else (true,
          { st with rows := st.rows.map (fun r =>
              if r.id == school_id then { r with fields := dmerge r.fields pl } else r) })

/-! ## `enrich_or_insert_unreviewed_school` (supabase_manager.py 453-573) -/

/-- `(v or "").strip()`; `none` models the `AttributeError` when `.strip()`
is called on a truthy non-string. -/
def strippedOrRaise (v : Val) : Option String :=
  if pyTruthy v then
    match v with
    | .vStr s => some (pyStrip s)
    | _ => Option.none
  else some ""

/-- the value is Python `None` or a `str` (the shapes `.strip()` and the
fill policy treat uniformly) -/
def isStrOrNone : Val → Bool
  | .none => true
  | .vStr _ => true
  | _ => false

def nameVar (data : PyDict) : Option String := strippedOrRaise (dget data "name")

def websiteVar (data : PyDict) : Option String :=
  strippedOrRaise (pyOr (dget data "website_url") (dget data "website"))

def sourceVar (data : PyDict) : Option String := strippedOrRaise (dget data "source_url")

def candidate_fields : List String :=
  ["year_founded", "country", "location", "website_url", "initial", "type",
   "confidence_score", "source_url"]

/-- One step of the fill loop over `candidate_fields`.  (The source has two
loops selected by `fill_only_empty`; the selection is folded into the step.) -/
def fillStep (ex : Row) (data : PyDict) (fill_only_empty : Bool) (p : PyDict)
    (f : String) : PyDict :=
  if fill_only_empty then
    if _is_empty_value (dget ex.fields f) && !_is_empty_value (dget data f) then
      dset p f (dget data f)
    else p
  else
    if decide (dget data f ≠ Val.none) then dset p f (dget data f) else p

def stagedScalars (ex : Row) (data : PyDict) (fill_only_empty : Bool) : PyDict :=
  candidate_fields.foldl (fillStep ex data fill_only_empty) []

/-- The `patch` dict staged in the match branch (scalar fields, then the rank
column, then the merged-and-augmented `raw_data`); `none` models an exception
while augmenting a truthy non-dict `raw_data`. -/
def stagedPatch (ex : Row) (data : PyDict) (fill_only_empty : Bool) : Option PyDict :=
  let r := _normalize_qs_ranking (dget data "qs_ranking")
  let p0 := stagedScalars ex data fill_only_empty
  let p1 :=
    match r.2.1 with
    | some m =>
      if (fill_only_empty && _is_empty_value (dget ex.fields "qs_ranking")) || !fill_only_empty then
        dset p0 "qs_ranking" (.vInt m)
      else p0
    | Option.none => p0
  match augmentRaw (dget data "raw_data") r.1 r.2.1 r.2.2 with
  | Option.none => Option.none
  | some rv => some (if pyTruthy rv then dset p1 "raw_data" rv else p1)

/-- The `insert_payload` built in the no-match branch, after rank folding and
`None`-filtering; `none` models an exception while augmenting `raw_data`. -/
def insertPayload (data : PyDict) (name website_url source_url : String) : Option PyDict :=
  let r := _normalize_qs_ranking (dget data "qs_ranking")
  let base : PyDict :=
    [("name", .vStr name),
     ("initial", dget data "initial"),
     ("type", dget data "type"),
     ("country", dget data "country"),
     ("location", dget data "location"),
     ("year_founded", dget data "year_founded"),
     ("qs_ranking", match r.2.1 with | some m => .vInt m | Option.none => .none),
     ("website_url", if website_url ≠ "" then .vStr website_url else dget data "website"),
     ("source_url", .vStr source_url),
     ("confidence_score", if dmem data "confidence_score" then dget data "confidence_score" else .vRat 0),
     ("raw_data", if dmem data "raw_data" then dget data "raw_data" else .dnil),
     ("status", if dmem data "status" then dget data "status" else .vStr "pending")]
  -- `insert_payload.get("raw_data")` reads back the `data.get("raw_data", {})`
  -- just stored above, so it is written directly here
  match augmentRaw (if dmem data "raw_data" then dget data "raw_data" else .dnil)
      r.1 r.2.1 r.2.2 with
  | Option.none => Option.none
  | some rv => some (dfilterNotNone (dset base "raw_data" rv))

/-- `x or None` on a stripped string. -/
def optOfStr (s : String) : Option String := if s = "" then Option.none else some s

/-- `enrich_or_insert_unreviewed_school(data, fill_only_empty=...)`: returns
`((id, action), store')` with `action ∈ {"inserted","enriched","skipped"}`;
the surrounding `try/except` turns any body exception into
`(None, "skipped")`. -/
def enrich_or_insert_unreviewed_school (st : Store) (data : PyDict)
    (fill_only_empty : Bool) : (Option Nat × String) × Store :=
  match nameVar data, websiteVar data, sourceVar data with
  | some name, some website_url, some source_url =>
    (match get_unreviewed_school_by_match st Option.none
        (optOfStr website_url) (optOfStr name) with
    | some ex =>
      match stagedPatch ex data fill_only_empty with
      | Option.none => ((Option.none, "skipped"), st)
      | some patch =>
        if patch ≠ [] then
          let res := patch_unreviewed_school st ex.id patch
          ((if res.1 then some ex.id else Option.none,
            if res.1 then "enriched" else "skipped"), res.2)
        else ((some ex.id, "skipped"), st)
    | Option.none =>
      match insertPayload data name website_url source_url with
      | Option.none => ((Option.none, "skipped"), st)
      | some payload =>
        if st.insertFails then ((Option.none, "skipped"), st)
        else ((some st.nextId, "inserted"),
          { st with rows := st.rows ++ [⟨st.nextId, payload⟩],
                    nextId := st.nextId + 1 }))
  | _, _, _ => ((Option.none, "skipped"), st)

/-! ## HTTP fetch layer — `HTTPClient.get_page`
(src/crawler/core/http_client.py lines 78-145)

The network is an explicit environment `ev : Nat → HttpEvent` giving the
outcome of the request issued on each (0-based) attempt.  The result is the
index of the successful attempt (`none` on failure) paired with the list of
sleeps performed, in seconds (`settings.RETRY_DELAY = 5.0`; rate-limiting
delays between requests are outside `get_page`'s retry logic and are not
recorded). -/

inductive HttpEvent where
  | status (code : Nat)
  | timeout
  | reqError
  | otherError
deriving DecidableEq, Repr

/-- `settings.MAX_RETRIES` (default). -/
def MAX_RETRIES : Nat := 3

/-- `settings.RETRY_DELAY` (seconds). -/
def RETRY_DELAY : Nat := 5

/-- The `for attempt in range(retries + 1)` loop; `fuel` is the number of
loop iterations left. -/
def get_page_go (ev : Nat → HttpEvent) (retries : Nat) :
    Nat → Nat → List Nat → Option Nat × List Nat
  | _, 0, waits => (Option.none, waits)
  | attempt, fuel + 1, waits =>
    match ev attempt with
    | .status 200 => (some attempt, waits)
    | .status 404 => (Option.none, waits)
    | .status c =>
      if c = 429 || c = 503 then
        get_page_go ev retries (attempt + 1) fuel (waits ++ [2 ^ attempt * 5])
      else if attempt < retries then
        get_page_go ev retries (attempt + 1) fuel (waits ++ [RETRY_DELAY])
      else (Option.none, waits)
    | _ =>
      if attempt < retries then
        get_page_go ev retries (attempt + 1) fuel (waits ++ [RETRY_DELAY])
      else (Option.none, waits)

/-- `get_page(url, retries)`. -/
def get_page (ev : Nat → HttpEvent) (retries : Nat) : Option Nat × List Nat :=
  get_page_go ev retries 0 (retries + 1) []

end Crawler

namespace Crawler

/-! ## Helper lemmas about the rank normalizer -/

/-- branch analysis of `normStr`: when both bounds come back, they are equal
unless the display is a hyphenated band. -/
theorem normStr_both_bounds (s d : String) (lo hi : Int)
    (h : normStr s = (some d, some lo, some hi)) :
    lo = hi ∨ d = intRepr lo ++ "-" ++ intRepr hi := by
  unfold normStr at h
  split at h
  · split at h <;> simp only [Prod.mk.injEq, Option.some.injEq] at h
    · obtain ⟨_, h2, h3⟩ := h; exact Or.inl (h2.symm.trans h3)
    · exact absurd h.2.1 (by simp)
  · split at h
    · split at h <;> simp only [Prod.mk.injEq, Option.some.injEq] at h
      · exact absurd h.2.2 (by simp)
      · exact absurd h.2.1 (by simp)
    · split at h
      · split at h <;> simp only [Prod.mk.injEq, Option.some.injEq] at h
        · obtain ⟨h1, h2, h3⟩ := h; subst h2; subst h3; exact Or.inr h1.symm
        · exact absurd h.2.1 (by simp)
      · split at h <;> simp only [Prod.mk.injEq, Option.some.injEq] at h
        · obtain ⟨_, h2, h3⟩ := h; exact Or.inl (h2.symm.trans h3)
        · exact absurd h.2.1 (by simp)

/-! ## Claim C5 — rank normalization literal cases -/

/-- C5: the normalizer maps `"=5"` to `("=5", 5, 5)`, `"5"` to `("5", 5, 5)`,
`"201-250"` to `(201, 250)`, `"1001+"` to `(1001, none)` and `"abc"` to
`("abc", none, none)`.  (Totality — "returns such a triple without raising
for every input" — holds by construction: `_normalize_qs_ranking` is a total
function in the embedding, every failure branch of the source yielding the
both-bounds-empty triple.) -/
theorem rank_literal_cases :
    _normalize_qs_ranking (.vStr "=5") = (some "=5", some 5, some 5) ∧
    _normalize_qs_ranking (.vStr "5") = (some "5", some 5, some 5) ∧
    _normalize_qs_ranking (.vStr "201-250") = (some "201-250", some 201, some 250) ∧
    _normalize_qs_ranking (.vStr "1001+") = (some "1001+", some 1001, Option.none) ∧
    _normalize_qs_ranking (.vStr "abc") = (some "abc", Option.none, Option.none) := by
  decide

/-! ## Claim C3 — bound ordering -/

/-- C3 counterexample: the claim "whenever both bounds are present,
`lower ≤ upper`" is false on the code: the reversed band `"10-2"` is parsed
to `lower = 10, upper = 2` with no ordering check. -/
theorem rank_bounds_order_cex :
    _normalize_qs_ranking (.vStr "10-2") = (some "10-2", some 10, some 2) ∧
    ¬ ((10 : Int) ≤ 2) := by
  decide

/-- C3 amended: whenever the normalizer returns both bounds, either
`lower ≤ upper` (indeed `lower = upper`, from the `"=n"` and plain-numeric
branches), or the input was a hyphenated band `"a-b"`, whose bounds are
returned exactly as parsed — so a reversed band yields `lower > upper`. -/
theorem rank_bounds_order_amended (v : Val) (d : String) (lo hi : Int)
    (h : _normalize_qs_ranking v = (some d, some lo, some hi)) :
    lo ≤ hi ∨ d = intRepr lo ++ "-" ++ intRepr hi := by
  unfold _normalize_qs_ranking at h
  split at h
  · exact absurd (congrArg Prod.fst h) (by simp)
  · dsimp only at h
    split at h
    · exact absurd (congrArg Prod.fst h) (by simp)
    · rcases normStr_both_bounds _ _ _ _ h with h' | h'
      · exact Or.inl (le_of_eq h')
      · exact Or.inr h'

/-- C3 amended, witnessed at the concrete input `"=5"`. -/
theorem rank_bounds_order_amended_witness :
    _normalize_qs_ranking (.vStr "=5") = (some "=5", some 5, some 5) ∧
    ((5 : Int) ≤ 5 ∨ "=5" = intRepr 5 ++ "-" ++ intRepr 5) :=
  ⟨by decide, rank_bounds_order_amended (.vStr "=5") "=5" 5 5 (by decide)⟩

/-! ## Emptiness characterization lemmas -/

theorem stripR_eq_nil_iff (l : List Char) : stripR l = [] ↔ l.all pyIsSpace = true := by
  induction l with
  | nil => simp [stripR]
  | cons c t ih =>
    simp only [stripR, List.all_cons]
    by_cases hr : stripR t = [] <;> by_cases hc : pyIsSpace c = true
    · simp [hr, hc, ih.mp hr]
    · simp [hr, hc]
    · have hat : ¬ t.all pyIsSpace = true := fun h => hr (ih.mpr h)
      simp [hr, hc, hat]
    · simp [hr, hc]

theorem dropWhile_all_eq (p : Char → Bool) (l : List Char) :
    (l.dropWhile p).all p = l.all p := by
  induction l with
  | nil => rfl
  | cons c t ih =>
    by_cases hc : p c = true
    · simp [List.dropWhile_cons, hc, ih]
    · simp [List.dropWhile_cons, hc]

theorem pyStripL_eq_nil_iff (l : List Char) :
    pyStripL l = [] ↔ l.all pyIsSpace = true := by
  rw [pyStripL, stripR_eq_nil_iff, dropWhile_all_eq]

theorem pyStrip_eq_empty_iff (s : String) :
    pyStrip s = "" ↔ s.data.all pyIsSpace = true := by
  rw [← pyStripL_eq_nil_iff]
  constructor
  · intro h; exact congrArg String.data h
  · intro h; rw [pyStrip, h]

/-! ## Claim C8 — the fill policy's notion of "empty" -/

/-- C8: `_is_empty_value v` holds exactly when `v` is `None` or a string made
solely of whitespace; the integer `0`, the float `0.0`, `False` and empty
collections all count as non-empty.  Consequently a stored `0.0` confidence
score is not overwritten by `enrich_or_insert_unreviewed_school` under
`fill_only_empty=true` (final conjunct: concrete store whose matched row has
`confidence_score = 0.0` keeps it against an incoming `0.9`). -/
theorem empty_value_characterization :
    (∀ v : Val, _is_empty_value v = true ↔
      v = Val.none ∨ ∃ s, v = Val.vStr s ∧ s.data.all pyIsSpace = true) ∧
    _is_empty_value (Val.vInt 0) = false ∧
    _is_empty_value (Val.vRat 0) = false ∧
    _is_empty_value (Val.vBool false) = false ∧
    _is_empty_value Val.dnil = false ∧
    _is_empty_value Val.lnil = false ∧
    (dget (((enrich_or_insert_unreviewed_school
      ⟨[⟨3, [("name", .vStr "Uni Y"), ("confidence_score", .vRat 0)]⟩], 4, false, false⟩
      [("name", .vStr "Uni Y"), ("confidence_score", .vRat (9/10))] true).2).rows.head!.fields)
      "confidence_score") = .vRat 0 := by
  refine ⟨fun v => ?_, by decide, by decide, by decide, by decide, by decide, by decide⟩
  cases v <;> simp [_is_empty_value, pyStrip_eq_empty_iff]

/-! ## Claim C9 — the reconciliation entry point is total -/

theorem patch_fails_unchanged (st : Store) (i : Nat) (u : PyDict)
    (hpf : st.patchFails = true) (hu : u ≠ []) :
    patch_unreviewed_school st i u = (false, st) := by
  unfold patch_unreviewed_school
  rw [if_neg hu]
  split
  · rfl
  · dsimp only
    split
    · rfl
    · rw [hpf]; rfl

/-- C9: for every input mapping and store state the reconciliation entry
point returns an `(id, action)` pair with
`action ∈ {"inserted", "enriched", "skipped"}` — it never propagates an
exception (exception paths of the source are explicit `(None, "skipped")`
branches of the embedding).  Moreover when both store writes fail, the call
reports `"skipped"` and leaves the store unchanged. -/
theorem reconcile_total_actions :
    (∀ (st : Store) (data : PyDict) (mode : Bool),
      (enrich_or_insert_unreviewed_school st data mode).1.2 = "inserted" ∨
      (enrich_or_insert_unreviewed_school st data mode).1.2 = "enriched" ∨
      (enrich_or_insert_unreviewed_school st data mode).1.2 = "skipped") ∧
    (∀ (st : Store) (data : PyDict) (mode : Bool),
      st.insertFails = true → st.patchFails = true →
      (enrich_or_insert_unreviewed_school st data mode).1.2 = "skipped" ∧
      (enrich_or_insert_unreviewed_school st data mode).2 = st) := by
  constructor
  · intro st data mode
    unfold enrich_or_insert_unreviewed_school
    split
    · split
      · split
        · simp
        · split
          · dsimp only
            split <;> simp
          · simp
      · split
        · simp
        · split
          · simp
          · simp
    · simp
  · intro st data mode hif hpf
    unfold enrich_or_insert_unreviewed_school
    split
    · split
      · split
        · simp
        · split
          · rename_i hnonempty
            rw [patch_fails_unchanged _ _ _ hpf hnonempty]
            simp
          · simp
      · split
        · simp
        · split
          · simp
          · rename_i hni; exact absurd hif hni
    · simp

/-- C9 witnessed: both failure flags set on a concrete store and candidate. -/
theorem reconcile_total_actions_witness :
    (enrich_or_insert_unreviewed_school
      ⟨[⟨7, [("name", .vStr "Example University")]⟩], 8, true, true⟩
      [("name", .vStr "Example"), ("country", .vStr "US")] true).1.2 = "skipped" ∧
    (enrich_or_insert_unreviewed_school
      ⟨[⟨7, [("name", .vStr "Example University")]⟩], 8, true, true⟩
      [("name", .vStr "Example"), ("country", .vStr "US")] true).2
      = ⟨[⟨7, [("name", .vStr "Example University")]⟩], 8, true, true⟩ :=
  reconcile_total_actions.2
    ⟨[⟨7, [("name", .vStr "Example University")]⟩], 8, true, true⟩
    [("name", .vStr "Example"), ("country", .vStr "US")] true rfl rfl

/-! ## Claim C7 — exponential backoff on throttling -/

theorem get_page_go_throttled (ev : Nat → HttpEvent) (r : Nat)
    (h : ∀ i, i ≤ r → ev i = .status 429 ∨ ev i = .status 503) :
    ∀ (fuel attempt : Nat) (waits : List Nat), attempt + fuel = r + 1 →
      get_page_go ev r attempt fuel waits =
        (Option.none, waits ++ (List.range' attempt fuel).map (fun i => 2 ^ i * 5)) := by
  intro fuel
  induction fuel with
  | zero => intro attempt waits _; simp [get_page_go]
  | succ fuel ih =>
    intro attempt waits hsum
    have hle : attempt ≤ r := by omega
    rcases h attempt hle with hev | hev <;>
      rw [get_page_go, hev] <;>
      simp only [] <;>
      rw [if_pos (by simp), ih (attempt + 1) (waits ++ [2 ^ attempt * 5]) (by omega)] <;>
      simp [List.range']

/-- C7: if every attempt is throttled (HTTP 429 or 503), `get_page` performs
exactly `retries + 1` attempts, sleeps `5 * 2^attempt` seconds after the
0-based attempt `attempt` (so the wait computed during 1-based attempt `k`,
i.e. the wait before attempt `k+1`, is `5 × 2^(k-1)`), and then surfaces
failure (`None`).  The recorded waits are therefore non-decreasing, each at
least (exactly) double the prior one. -/
theorem backoff_exponential (ev : Nat → HttpEvent) (r : Nat)
    (h : ∀ i, i ≤ r → ev i = .status 429 ∨ ev i = .status 503) :
    get_page ev r = (Option.none, (List.range (r + 1)).map (fun i => 2 ^ i * 5)) ∧
    (get_page ev r).2.length = r + 1 ∧
    List.Chain' (fun a b => a ≤ b ∧ 2 * a ≤ b) (get_page ev r).2 := by
  have hmain : get_page ev r = (Option.none, (List.range (r + 1)).map (fun i => 2 ^ i * 5)) := by
    rw [get_page, get_page_go_throttled ev r h (r + 1) 0 [] (by omega)]
    rw [List.range_eq_range']
    rfl
  refine ⟨hmain, ?_, ?_⟩
  · rw [hmain]; simp
  · rw [hmain]
    dsimp only
    rw [List.chain'_map, List.chain'_range_succ]
    intro m _
    rw [pow_succ]
    constructor
    · generalize (2 : Nat) ^ m = k; omega
    · generalize (2 : Nat) ^ m = k; omega

/-- C7 witnessed: three consecutive 429 responses (`retries = 2`) give the
wait sequence `[5, 10, 20]` and a surfaced failure. -/
theorem backoff_exponential_witness :
    get_page (fun _ => HttpEvent.status 429) 2 = (Option.none, [5, 10, 20]) ∧
    List.Chain' (fun a b => a ≤ b ∧ 2 * a ≤ b)
      (get_page (fun _ => HttpEvent.status 429) 2).2 := by
  have h := backoff_exponential (fun _ => HttpEvent.status 429) 2 (fun i _ => Or.inl rfl)
  exact ⟨h.1.trans (by decide), h.2.2⟩

/-! ## Character and strip lemmas -/

theorem isDigit_not_space {c : Char} (h : c.isDigit = true) : pyIsSpace c = false := by
  rcases hsp : pyIsSpace c
  · rfl
  · exfalso
    simp only [pyIsSpace, Bool.or_eq_true, decide_eq_true_eq] at hsp
    rcases hsp with ((((h1 | h1) | h1) | h1) | h1) | h1 <;> subst h1 <;>
      exact absurd h (by decide)

theorem isDigit_ne_hyphen {c : Char} (h : c.isDigit = true) : c ≠ '-' :=
  fun he => absurd h (by subst he; decide)

theorem isDigit_ne_eq {c : Char} (h : c.isDigit = true) : c ≠ '=' :=
  fun he => absurd h (by subst he; decide)

theorem isDigit_ne_plus {c : Char} (h : c.isDigit = true) : c ≠ '+' :=
  fun he => absurd h (by subst he; decide)

theorem isDigit_ne_us {c : Char} (h : c.isDigit = true) : c ≠ '_' :=
  fun he => absurd h (by subst he; decide)

theorem mem_dropWhile {p : Char → Bool} {c : Char} :
    ∀ {l : List Char}, c ∈ l.dropWhile p → c ∈ l := by
  intro l
  induction l with
  | nil => simp
  | cons a t ih =>
    intro h
    rw [List.dropWhile_cons] at h
    by_cases ha : p a = true
    · rw [if_pos ha] at h; exact List.mem_cons_of_mem a (ih h)
    · rw [if_neg ha] at h; exact h

theorem mem_stripR {c : Char} : ∀ {l : List Char}, c ∈ stripR l → c ∈ l := by
  intro l
  induction l with
  | nil => simp [stripR]
  | cons a t ih =>
    intro h
    rw [stripR] at h
    split at h
    · cases h
    · rcases List.mem_cons.mp h with h | h
      · exact h ▸ List.mem_cons_self a t
      · exact List.mem_cons_of_mem a (ih h)

theorem mem_pyStripL {c : Char} {l : List Char} (h : c ∈ pyStripL l) : c ∈ l :=
  mem_dropWhile (mem_stripR h)

theorem dropWhile_eq_self_of_all {p : Char → Bool} {l : List Char}
    (h : ∀ c ∈ l, p c = false) : l.dropWhile p = l := by
  cases l with
  | nil => rfl
  | cons a t => rw [List.dropWhile_cons, if_neg (by simp [h a (List.mem_cons_self a t)])]

theorem stripR_eq_self_of_all {l : List Char}
    (h : ∀ c ∈ l, pyIsSpace c = false) : stripR l = l := by
  induction l with
  | nil => rfl
  | cons a t ih =>
    rw [stripR]
    have ha := h a (List.mem_cons_self a t)
    have ht := ih (fun c hc => h c (List.mem_cons_of_mem a hc))
    rw [ht, if_neg (by simp [ha])]

theorem pyStripL_eq_self_of_all {l : List Char}
    (h : ∀ c ∈ l, pyIsSpace c = false) : pyStripL l = l := by
  rw [pyStripL, dropWhile_eq_self_of_all h, stripR_eq_self_of_all h]

theorem pyStrip_eq_self_of_all {s : String}
    (h : ∀ c ∈ s.data, pyIsSpace c = false) : pyStrip s = s := by
  cases s with
  | mk l => rw [pyStrip]; exact congrArg String.mk (pyStripL_eq_self_of_all h)

theorem stripR_head_cases (a : Char) (t : List Char) :
    stripR (a :: t) = [] ∨ stripR (a :: t) = a :: stripR t := by
  rw [stripR]
  split
  · exact Or.inl rfl
  · exact Or.inr rfl

theorem stripR_idem : ∀ l : List Char, stripR (stripR l) = stripR l := by
  intro l
  induction l with
  | nil => rfl
  | cons a t ih =>
    rw [stripR]
    split
    · rfl
    · rename_i hcond
      rw [stripR, ih, if_neg hcond]

theorem dropWhile_head_cases (p : Char → Bool) (l : List Char) :
    l.dropWhile p = [] ∨ ∃ c t, l.dropWhile p = c :: t ∧ p c = false := by
  induction l with
  | nil => exact Or.inl rfl
  | cons a t ih =>
    rw [List.dropWhile_cons]
    by_cases ha : p a = true
    · rw [if_pos ha]; exact ih
    · rw [if_neg ha]
      exact Or.inr ⟨a, t, rfl, by simpa using ha⟩

theorem pyStripL_idem (l : List Char) : pyStripL (pyStripL l) = pyStripL l := by
  rw [pyStripL, pyStripL]
  rcases dropWhile_head_cases pyIsSpace l with hm | ⟨c, t, hm, hc⟩
  · rw [hm]; rfl
  · rw [hm]
    rcases stripR_head_cases c t with hs | hs
    · rw [hs]; rfl
    · rw [hs, List.dropWhile_cons, if_neg (by simp [hc]), ← hs, stripR_idem]

theorem pyStrip_idem (s : String) : pyStrip (pyStrip s) = pyStrip s := by
  rw [pyStrip, pyStrip]
  exact congrArg String.mk (pyStripL_idem s.data)

/-! ## `splitHy` lemmas -/

theorem splitHy_append {l1 : List Char} (h : '-' ∉ l1) (l2 : List Char) :
    splitHy (l1 ++ '-' :: l2) = (l1, l2) := by
  induction l1 with
  | nil => simp [splitHy]
  | cons c t ih =>
    have hc : c ≠ '-' := fun he => h (he ▸ List.mem_cons_self c t)
    have ht : '-' ∉ t := fun hm => h (List.mem_cons_of_mem c hm)
    rw [List.cons_append, splitHy, if_neg (by simpa using fun he => hc he)]
    rw [ih ht]

theorem splitHy_fst_mem : ∀ {l : List Char} {c : Char}, c ∈ (splitHy l).1 → c ∈ l := by
  intro l
  induction l with
  | nil => simp [splitHy]
  | cons a t ih =>
    intro c h
    rw [splitHy] at h
    split at h
    · cases h
    · rcases List.mem_cons.mp h with h | h
      · exact h ▸ List.mem_cons_self a t
      · exact List.mem_cons_of_mem a (ih h)

theorem splitHy_snd_mem : ∀ {l : List Char} {c : Char}, c ∈ (splitHy l).2 → c ∈ l := by
  intro l
  induction l with
  | nil => simp [splitHy]
  | cons a t ih =>
    intro c h
    rw [splitHy] at h
    split at h
    · exact List.mem_cons_of_mem a h
    · exact List.mem_cons_of_mem a (ih h)

theorem splitHy_fst_no_hyphen : ∀ l : List Char, '-' ∉ (splitHy l).1 := by
  intro l
  induction l with
  | nil => simp [splitHy]
  | cons a t ih =>
    rw [splitHy]
    split
    · simp
    · rename_i ha
      intro hm
      rcases List.mem_cons.mp hm with hm | hm
      · exact ha hm.symm
      · exact ih hm

/-! ## `lastChar` lemmas -/

theorem lastChar_append_cons (l1 : List Char) (c : Char) (l2 : List Char) :
    lastChar (l1 ++ c :: l2) = lastChar (c :: l2) := by
  induction l1 with
  | nil => rfl
  | cons a t ih =>
    rw [List.cons_append]
    cases ht : t ++ c :: l2 with
    | nil => exact absurd ht (by simp)
    | cons b u => rw [show lastChar (a :: b :: u) = lastChar (b :: u) from rfl, ← ht, ih]

theorem lastChar_concat (l : List Char) (c : Char) : lastChar (l ++ [c]) = some c :=
  lastChar_append_cons l c []

/-! ## Decimal representation lemmas -/

theorem natReprAux_congr : ∀ (f1 f2 n : Nat), n < f1 → n < f2 →
    natReprAux f1 n = natReprAux f2 n := by
  intro f1
  induction f1 with
  | zero => intro f2 n h1 _; omega
  | succ f1 ih =>
    intro f2 n h1 h2
    cases f2 with
    | zero => omega
    | succ f2 =>
      rw [natReprAux, natReprAux]
      by_cases hn : n < 10
      · rw [if_pos hn, if_pos hn]
      · rw [if_neg hn, if_neg hn]
        have hd : n / 10 < n := Nat.div_lt_self (by omega) (by omega)
        rw [ih f2 (n / 10) (by omega) (by omega)]

theorem natReprL_unfold (n : Nat) :
    natReprL n = if n < 10 then [digitChar n]
                 else natReprL (n / 10) ++ [digitChar (n % 10)] := by
  rw [natReprL, natReprAux]
  by_cases hn : n < 10
  · rw [if_pos hn, if_pos hn]
  · rw [if_neg hn, if_neg hn, natReprL]
    have hd : n / 10 < n := Nat.div_lt_self (by omega) (by omega)
    rw [natReprAux_congr n (n / 10 + 1) (n / 10) (by omega) (by omega)]

theorem digitChar_isDigit {n : Nat} : (digitChar n).isDigit = true := by
  match n with
  | 0 | 1 | 2 | 3 | 4 | 5 | 6 | 7 | 8 => decide
  | m + 9 => rw [show digitChar (m + 9) = '9' from by cases m <;> rfl]; decide

theorem digitVal_digitChar {n : Nat} (h : n < 10) : digitVal (digitChar n) = n := by
  interval_cases n <;> decide

theorem natReprL_all_digit (n : Nat) : ∀ c ∈ natReprL n, c.isDigit = true := by
  induction n using Nat.strong_induction_on with
  | _ n ih =>
    rw [natReprL_unfold]
    by_cases hn : n < 10
    · rw [if_pos hn]
      intro c hc
      rw [List.mem_singleton.mp hc]
      exact digitChar_isDigit
    · rw [if_neg hn]
      intro c hc
      rcases List.mem_append.mp hc with hc | hc
      · exact ih (n / 10) (Nat.div_lt_self (by omega) (by omega)) c hc
      · rw [List.mem_singleton.mp hc]
        exact digitChar_isDigit

theorem natReprL_ne_nil (n : Nat) : natReprL n ≠ [] := by
  rw [natReprL_unfold]
  by_cases hn : n < 10
  · rw [if_pos hn]; simp
  · rw [if_neg hn]; simp

theorem digitsVal_append_digit (l : List Char) (c : Char) (hc : c ≠ '_') :
    digitsVal (l ++ [c]) = digitsVal l * 10 + digitVal c := by
  rw [digitsVal, digitsVal, List.filter_append, List.foldl_append]
  rw [show List.filter (fun c => decide (c ≠ '_')) [c] = [c] from by simp [hc]]
  rfl

theorem digitsVal_natReprL (n : Nat) : digitsVal (natReprL n) = n := by
  induction n using Nat.strong_induction_on with
  | _ n ih =>
    rw [natReprL_unfold]
    by_cases hn : n < 10
    · rw [if_pos hn]
      rw [digitsVal]
      rw [show List.filter (fun c => decide (c ≠ '_')) [digitChar n] = [digitChar n] from by
        simp [isDigit_ne_us digitChar_isDigit]]
      simp [digitVal_digitChar hn]
    · rw [if_neg hn]
      rw [digitsVal_append_digit _ _ (isDigit_ne_us digitChar_isDigit)]
      rw [ih (n / 10) (Nat.div_lt_self (by omega) (by omega))]
      rw [digitVal_digitChar (Nat.mod_lt n (by omega))]
      omega

theorem usRest_of_all_digit {l : List Char} (h : ∀ c ∈ l, c.isDigit = true) :
    usRest l = true := by
  induction l with
  | nil => rfl
  | cons c t ih =>
    have hc := h c (List.mem_cons_self c t)
    rw [usRest.eq_def]
    dsimp only
    rw [if_neg (isDigit_ne_us hc), hc, ih (fun c hc' => h c (List.mem_cons_of_mem _ hc'))]
    rfl

theorem usDigits_of_all_digit {l : List Char} (hne : l ≠ [])
    (h : ∀ c ∈ l, c.isDigit = true) : usDigits l = true := by
  cases l with
  | nil => exact absurd rfl hne
  | cons c t =>
    rw [usDigits, h c (List.mem_cons_self c t),
      usRest_of_all_digit (fun c hc' => h c (List.mem_cons_of_mem _ hc'))]
    rfl

theorem pyIntL_of_all_digit {l : List Char} (hne : l ≠ [])
    (h : ∀ c ∈ l, c.isDigit = true) :
    pyIntL l = some (Int.ofNat (digitsVal l)) := by
  cases l with
  | nil => exact absurd rfl hne
  | cons c t =>
    have hc := h c (List.mem_cons_self c t)
    rw [pyIntL, if_neg (isDigit_ne_plus hc), if_neg (isDigit_ne_hyphen hc),
      if_pos (usDigits_of_all_digit (by simp) h)]

theorem pyInt_of_all_digit {l : List Char} (hne : l ≠ [])
    (h : ∀ c ∈ l, c.isDigit = true) :
    pyInt ⟨l⟩ = some (Int.ofNat (digitsVal l)) := by
  rw [pyInt]
  rw [show (String.mk l).data = l from rfl]
  rw [pyStripL_eq_self_of_all (fun c hc => isDigit_not_space (h c hc))]
  exact pyIntL_of_all_digit hne h

theorem pyInt_natRepr (n : Nat) : pyInt (natRepr n) = some (Int.ofNat n) := by
  rw [natRepr, pyInt_of_all_digit (natReprL_ne_nil n) (natReprL_all_digit n),
    digitsVal_natReprL]

theorem intRepr_data : ∀ n : Int,
    (intRepr n).data = natReprL n.natAbs ∨
    (n < 0 ∧ (intRepr n).data = '-' :: natReprL n.natAbs) := by
  intro n
  match n with
  | .ofNat m => exact Or.inl rfl
  | .negSucc m =>
    refine Or.inr ⟨Int.negSucc_lt_zero m, ?_⟩
    show ("-" ++ natRepr (m + 1)).data = '-' :: natReprL (m + 1)
    rw [String.data_append]
    rfl

theorem intRepr_all_digit_or_hyphen (n : Int) :
    ∀ c ∈ (intRepr n).data, c.isDigit = true ∨ c = '-' := by
  rcases intRepr_data n with h | ⟨_, h⟩ <;> rw [h]
  · exact fun c hc => Or.inl (natReprL_all_digit _ c hc)
  · intro c hc
    rcases List.mem_cons.mp hc with hc | hc
    · exact Or.inr hc
    · exact Or.inl (natReprL_all_digit _ c hc)

theorem intRepr_not_space (n : Int) : ∀ c ∈ (intRepr n).data, pyIsSpace c = false := by
  intro c hc
  rcases intRepr_all_digit_or_hyphen n c hc with h | h
  · exact isDigit_not_space h
  · rw [h]; rfl

theorem pyInt_intRepr (n : Int) : pyInt (intRepr n) = some n := by
  match n with
  | .ofNat m => exact pyInt_natRepr m
  | .negSucc m =>
    have hd : (intRepr (Int.negSucc m)).data = '-' :: natReprL (m + 1) := by
      show ("-" ++ natRepr (m + 1)).data = '-' :: natReprL (m + 1)
      rw [String.data_append]
      rfl
    rw [pyInt, hd]
    have hall : ∀ c ∈ '-' :: natReprL (m + 1), pyIsSpace c = false := by
      intro c hc
      rcases List.mem_cons.mp hc with hc | hc
      · rw [hc]; rfl
      · exact isDigit_not_space (natReprL_all_digit _ c hc)
    rw [pyStripL_eq_self_of_all hall]
    rw [pyIntL, if_neg (by decide), if_pos rfl,
      if_pos (usDigits_of_all_digit (natReprL_ne_nil _) (natReprL_all_digit _)),
      digitsVal_natReprL]
    rfl

/-! ## Evaluation lemmas for the two rank parsers on canonical shapes -/

theorem startsEq_cons (c : Char) (t : List Char) :
    startsEq ⟨c :: t⟩ = decide (c = '=') := rfl

theorem endsPlus_eq (s : String) :
    endsPlus s = (match lastChar s.data with
                  | some c => decide (c = '+')
                  | Option.none => false) := rfl

theorem hasHyphen_of_mem {l : List Char} (h : '-' ∈ l) : hasHyphen l = true := by
  induction l with
  | nil => cases h
  | cons c t ih =>
    rw [hasHyphen]
    rcases List.mem_cons.mp h with h | h
    · simp [h.symm]
    · simp [ih h]

theorem hasHyphen_eq_false {l : List Char} (h : '-' ∉ l) : hasHyphen l = false := by
  induction l with
  | nil => rfl
  | cons c t ih =>
    have hc : ¬ c = '-' := fun he => h (he ▸ List.mem_cons_self c t)
    rw [hasHyphen, ih (fun hm => h (List.mem_cons_of_mem c hm)), decide_eq_false hc]
    rfl

theorem lastChar_spec : ∀ l : List Char, l = [] ∨ ∃ c, lastChar l = some c ∧ c ∈ l := by
  intro l
  induction l with
  | nil => exact Or.inl rfl
  | cons a t ih =>
    refine Or.inr ?_
    rcases ih with rfl | ⟨c, hc, hm⟩
    · exact ⟨a, rfl, List.mem_cons_self a []⟩
    · cases t with
      | nil => cases hm
      | cons b u =>
        exact ⟨c, by rw [show lastChar (a :: b :: u) = lastChar (b :: u) from rfl]; exact hc,
          List.mem_cons_of_mem a hm⟩

theorem mk_ne_empty {l : List Char} (h : l ≠ []) : (⟨l⟩ : String) ≠ "" :=
  fun he => h (congrArg String.data he)

theorem vStr_ne_vnone (s : String) : Val.vStr s ≠ Val.none := fun h => Val.noConfusion h

/-- digit-only strings are left unchanged by strip -/
theorem pyStrip_digits {l : List Char} (h : ∀ c ∈ l, c.isDigit = true) :
    pyStrip ⟨l⟩ = ⟨l⟩ :=
  pyStrip_eq_self_of_all (fun c hc => isDigit_not_space (h c hc))

/-- `_normalize_qs_ranking` on a plain digit string. -/
theorem qs_on_digits {m : List Char} (hne : m ≠ []) (hdig : ∀ c ∈ m, c.isDigit = true) :
    _normalize_qs_ranking (.vStr ⟨m⟩) =
      (some (intRepr (Int.ofNat (digitsVal m))),
       some (Int.ofNat (digitsVal m)), some (Int.ofNat (digitsVal m))) := by
  unfold _normalize_qs_ranking
  rw [if_neg (by simp)]
  dsimp only
  rw [show pyStr (Val.vStr ⟨m⟩) = ⟨m⟩ from rfl, pyStrip_digits hdig,
    if_neg (mk_ne_empty hne)]
  obtain ⟨c, t, rfl⟩ : ∃ c t, m = c :: t := by
    cases m with
    | nil => exact absurd rfl hne
    | cons c t => exact ⟨c, t, rfl⟩
  have hc := hdig c (List.mem_cons_self c t)
  rw [normStr, if_neg (by rw [startsEq_cons, decide_eq_false (isDigit_ne_eq hc)]; exact Bool.false_ne_true)]
  rw [if_neg ?hplus]
  case hplus =>
    rw [endsPlus_eq]
    rcases lastChar_spec (String.data ⟨c :: t⟩) with habs | ⟨d, hd, hmem⟩
    · exact absurd habs (by simp)
    · rw [hd]
      simp only [decide_eq_false (isDigit_ne_plus (hdig d hmem))]
      exact Bool.false_ne_true
  rw [if_neg ?hhy]
  case hhy =>
    rw [show containsHyphen ⟨c :: t⟩ = hasHyphen (c :: t) from rfl]
    rw [hasHyphen_eq_false (fun hm => isDigit_ne_hyphen (hdig '-' hm) rfl)]
    exact Bool.false_ne_true
  rw [pyInt_of_all_digit hne hdig]

/-- `_normalize_qs_ranking` on `"=" ++ digits`. -/
theorem qs_on_eq_digits {m : List Char} (hne : m ≠ []) (hdig : ∀ c ∈ m, c.isDigit = true) :
    _normalize_qs_ranking (.vStr ⟨'=' :: m⟩) =
      (some ("=" ++ intRepr (Int.ofNat (digitsVal m))),
       some (Int.ofNat (digitsVal m)), some (Int.ofNat (digitsVal m))) := by
  unfold _normalize_qs_ranking
  rw [if_neg (by simp)]
  dsimp only
  have hall : ∀ c ∈ '=' :: m, pyIsSpace c = false := by
    intro c hc
    rcases List.mem_cons.mp hc with rfl | hc
    · rfl
    · exact isDigit_not_space (hdig c hc)
  rw [show pyStr (Val.vStr ⟨'=' :: m⟩) = ⟨'=' :: m⟩ from rfl,
    pyStrip_eq_self_of_all hall, if_neg (mk_ne_empty (by simp))]
  rw [normStr, if_pos (by rw [startsEq_cons]; simp)]
  rw [show strDrop1 ⟨'=' :: m⟩ = ⟨m⟩ from rfl, pyStrip_digits hdig,
    pyInt_of_all_digit hne hdig]

/-- `_normalize_qs_ranking` on a band `digits ++ "-" ++ digits`. -/
theorem qs_on_band {l1 l2 : List Char} (hne1 : l1 ≠ []) (hne2 : l2 ≠ [])
    (hdig1 : ∀ c ∈ l1, c.isDigit = true) (hdig2 : ∀ c ∈ l2, c.isDigit = true) :
    _normalize_qs_ranking (.vStr ⟨l1 ++ '-' :: l2⟩) =
      (some (intRepr (Int.ofNat (digitsVal l1)) ++ "-" ++ intRepr (Int.ofNat (digitsVal l2))),
       some (Int.ofNat (digitsVal l1)), some (Int.ofNat (digitsVal l2))) := by
  unfold _normalize_qs_ranking
  rw [if_neg (by simp)]
  dsimp only
  have hall : ∀ c ∈ l1 ++ '-' :: l2, pyIsSpace c = false := by
    intro c hc
    rcases List.mem_append.mp hc with hc | hc
    · exact isDigit_not_space (hdig1 c hc)
    · rcases List.mem_cons.mp hc with rfl | hc
      · rfl
      · exact isDigit_not_space (hdig2 c hc)
  rw [show pyStr (Val.vStr ⟨l1 ++ '-' :: l2⟩) = ⟨l1 ++ '-' :: l2⟩ from rfl,
    pyStrip_eq_self_of_all hall, if_neg (mk_ne_empty (by simp))]
  obtain ⟨c, t, rfl⟩ : ∃ c t, l1 = c :: t := by
    cases l1 with
    | nil => exact absurd rfl hne1
    | cons c t => exact ⟨c, t, rfl⟩
  have hc := hdig1 c (List.mem_cons_self c t)
  have hl1nh : '-' ∉ c :: t := fun hm => isDigit_ne_hyphen (hdig1 '-' hm) rfl
  rw [normStr]
  rw [if_neg (by
    rw [show startsEq ⟨(c :: t) ++ '-' :: l2⟩ = decide (c = '=') from rfl,
      decide_eq_false (isDigit_ne_eq hc)]
    exact Bool.false_ne_true)]
  rw [if_neg ?hplus]
  case hplus =>
    rw [endsPlus_eq]
    obtain ⟨d, hd, hmem⟩ : ∃ d, lastChar ((c :: t) ++ '-' :: l2) = some d ∧ d ∈ l2 := by
      rw [lastChar_append_cons]
      cases l2 with
      | nil => exact absurd rfl hne2
      | cons b u =>
        rcases lastChar_spec (b :: u) with habs | ⟨d, hd, hmem⟩
        · cases habs
        · exact ⟨d, by rw [show lastChar ('-' :: b :: u) = lastChar (b :: u) from rfl]; exact hd, hmem⟩
    rw [show String.data ⟨(c :: t) ++ '-' :: l2⟩ = (c :: t) ++ '-' :: l2 from rfl, hd]
    simp only [decide_eq_false (isDigit_ne_plus (hdig2 d hmem))]
    exact Bool.false_ne_true
  rw [if_pos (by
    rw [show containsHyphen ⟨(c :: t) ++ '-' :: l2⟩ = hasHyphen ((c :: t) ++ '-' :: l2) from rfl]
    rw [hasHyphen_of_mem (List.mem_append.mpr (Or.inr (List.mem_cons_self '-' l2)))])]
  rw [show String.data ⟨(c :: t) ++ '-' :: l2⟩ = (c :: t) ++ '-' :: l2 from rfl,
    splitHy_append hl1nh l2]
  rw [show ((c :: t, l2) : List Char × List Char).1 = c :: t from rfl,
    show ((c :: t, l2) : List Char × List Char).2 = l2 from rfl]
  rw [pyStrip_digits hdig1, pyStrip_digits hdig2,
    pyInt_of_all_digit hne1 hdig1, pyInt_of_all_digit hne2 hdig2]

theorem replaceEq_no_eq {l : List Char} (h : ∀ c ∈ l, c ≠ '=') :
    pyReplaceEq ⟨l⟩ = ⟨l⟩ := by
  rw [pyReplaceEq]
  exact congrArg String.mk (List.filter_eq_self.mpr (fun c hc => by simp [h c hc]))

theorem isDigitStr_digits {m : List Char} (hne : m ≠ [])
    (hdig : ∀ c ∈ m, c.isDigit = true) : pyIsDigitStr ⟨m⟩ = true := by
  rw [pyIsDigitStr]
  rw [show (String.mk m).data = m from rfl]
  cases m with
  | nil => exact absurd rfl hne
  | cons c t => simp [List.all_eq_true.mpr hdig]

theorem isDigitStr_band {l1 l2 : List Char} :
    pyIsDigitStr ⟨l1 ++ '-' :: l2⟩ = false := by
  rcases h : pyIsDigitStr ⟨l1 ++ '-' :: l2⟩
  · rfl
  · exfalso
    rw [pyIsDigitStr, Bool.and_eq_true] at h
    have hall := List.all_eq_true.mp h.2 '-'
      (by exact List.mem_append.mpr (Or.inr (List.mem_cons_self '-' l2)))
    exact absurd hall (by decide)

/-- `_parse_rank_bounds` on a plain digit string. -/
theorem topN_on_digits {m : List Char} (hne : m ≠ [])
    (hdig : ∀ c ∈ m, c.isDigit = true) :
    _parse_rank_bounds (.vStr ⟨m⟩) =
      (some (Int.ofNat (digitsVal m)), some (Int.ofNat (digitsVal m))) := by
  unfold _parse_rank_bounds
  rw [if_neg (by simp)]
  dsimp only
  rw [show pyStr (Val.vStr ⟨m⟩) = ⟨m⟩ from rfl, pyStrip_digits hdig,
    replaceEq_no_eq (fun c hc => isDigit_ne_eq (hdig c hc)),
    if_neg (mk_ne_empty hne), if_pos (isDigitStr_digits hne hdig)]

/-- `_parse_rank_bounds` on `"=" ++ digits` (all `"="` are removed first). -/
theorem topN_on_eq_digits {m : List Char} (hne : m ≠ [])
    (hdig : ∀ c ∈ m, c.isDigit = true) :
    _parse_rank_bounds (.vStr ⟨'=' :: m⟩) =
      (some (Int.ofNat (digitsVal m)), some (Int.ofNat (digitsVal m))) := by
  unfold _parse_rank_bounds
  rw [if_neg (by simp)]
  dsimp only
  have hall : ∀ c ∈ '=' :: m, pyIsSpace c = false := by
    intro c hc
    rcases List.mem_cons.mp hc with rfl | hc
    · rfl
    · exact isDigit_not_space (hdig c hc)
  have hrep : pyReplaceEq ⟨'=' :: m⟩ = ⟨m⟩ := by
    rw [pyReplaceEq]
    refine congrArg String.mk ?_
    rw [show String.data ⟨'=' :: m⟩ = '=' :: m from rfl, List.filter_cons]
    rw [if_neg (by simp)]
    exact List.filter_eq_self.mpr (fun c hc => by simp [isDigit_ne_eq (hdig c hc)])
  rw [show pyStr (Val.vStr ⟨'=' :: m⟩) = ⟨'=' :: m⟩ from rfl,
    pyStrip_eq_self_of_all hall, hrep,
    if_neg (mk_ne_empty hne), if_pos (isDigitStr_digits hne hdig)]

/-- `_parse_rank_bounds` on a band `digits ++ "-" ++ digits`. -/
theorem topN_on_band {l1 l2 : List Char} (hne1 : l1 ≠ []) (hne2 : l2 ≠ [])
    (hdig1 : ∀ c ∈ l1, c.isDigit = true) (hdig2 : ∀ c ∈ l2, c.isDigit = true) :
    _parse_rank_bounds (.vStr ⟨l1 ++ '-' :: l2⟩) =
      (some (Int.ofNat (digitsVal l1)), some (Int.ofNat (digitsVal l2))) := by
  unfold _parse_rank_bounds
  rw [if_neg (by simp)]
  dsimp only
  have hall : ∀ c ∈ l1 ++ '-' :: l2, pyIsSpace c = false := by
    intro c hc
    rcases List.mem_append.mp hc with hc | hc
    · exact isDigit_not_space (hdig1 c hc)
    · rcases List.mem_cons.mp hc with rfl | hc
      · rfl
      · exact isDigit_not_space (hdig2 c hc)
  have hnoeq : ∀ c ∈ l1 ++ '-' :: l2, c ≠ '=' := by
    intro c hc
    rcases List.mem_append.mp hc with hc | hc
    · exact isDigit_ne_eq (hdig1 c hc)
    · rcases List.mem_cons.mp hc with rfl | hc
      · decide
      · exact isDigit_ne_eq (hdig2 c hc)
  have hl1nh : '-' ∉ l1 := fun hm => isDigit_ne_hyphen (hdig1 '-' hm) rfl
  rw [show pyStr (Val.vStr ⟨l1 ++ '-' :: l2⟩) = ⟨l1 ++ '-' :: l2⟩ from rfl,
    pyStrip_eq_self_of_all hall, replaceEq_no_eq hnoeq,
    if_neg (mk_ne_empty (by simp)), isDigitStr_band]
  rw [if_neg Bool.false_ne_true]
  rw [if_pos (by
    rw [show containsHyphen ⟨l1 ++ '-' :: l2⟩ = hasHyphen (l1 ++ '-' :: l2) from rfl]
    rw [hasHyphen_of_mem (List.mem_append.mpr (Or.inr (List.mem_cons_self '-' l2)))])]
  dsimp only
  rw [splitHy_append hl1nh l2]
  dsimp only
  rw [pyStrip_digits hdig1, pyStrip_digits hdig2,
    if_pos (by rw [isDigitStr_digits hne1 hdig1, isDigitStr_digits hne2 hdig2]; rfl)]

/-! ## Claim C4 — cross-component rank convention discrepancy -/

/-- C4: on a banded rank string `lo-hi` (both sides nonempty digit strings,
`lo < hi`), the reconciliation engine's normalizer returns `lo` as the scalar
written to the rank column (`min_int`, the second component), whereas the
Top-N script's `_normalize_rank_to_int` returns `hi`; on plain digit strings
and on `"=n"` inputs both produce the same integer. -/
theorem rank_convention_discrepancy (l1 l2 : List Char)
    (hne1 : l1 ≠ []) (hne2 : l2 ≠ [])
    (hdig1 : ∀ c ∈ l1, c.isDigit = true) (hdig2 : ∀ c ∈ l2, c.isDigit = true)
    (_hlt : digitsVal l1 < digitsVal l2) :
    (_normalize_qs_ranking (.vStr ⟨l1 ++ '-' :: l2⟩)).2.1 = some (Int.ofNat (digitsVal l1)) ∧
    _normalize_rank_to_int (.vStr ⟨l1 ++ '-' :: l2⟩) = some (Int.ofNat (digitsVal l2)) ∧
    (∀ m : List Char, m ≠ [] → (∀ c ∈ m, c.isDigit = true) →
      (_normalize_qs_ranking (.vStr ⟨m⟩)).2.1 = some (Int.ofNat (digitsVal m)) ∧
      _normalize_rank_to_int (.vStr ⟨m⟩) = some (Int.ofNat (digitsVal m))) ∧
    (∀ m : List Char, m ≠ [] → (∀ c ∈ m, c.isDigit = true) →
      (_normalize_qs_ranking (.vStr ⟨'=' :: m⟩)).2.1 = some (Int.ofNat (digitsVal m)) ∧
      _normalize_rank_to_int (.vStr ⟨'=' :: m⟩) = some (Int.ofNat (digitsVal m))) := by
  refine ⟨?_, ?_, ?_, ?_⟩
  · rw [qs_on_band hne1 hne2 hdig1 hdig2]
  · rw [_normalize_rank_to_int, topN_on_band hne1 hne2 hdig1 hdig2]
  · intro m hne hdig
    exact ⟨by rw [qs_on_digits hne hdig],
           by rw [_normalize_rank_to_int, topN_on_digits hne hdig]⟩
  · intro m hne hdig
    exact ⟨by rw [qs_on_eq_digits hne hdig],
           by rw [_normalize_rank_to_int, topN_on_eq_digits hne hdig]⟩

/-- C4 witnessed on `"201-250"`: the engine writes 201, the script writes
250; both yield 5 on `"5"` and `"=5"`. -/
theorem rank_convention_discrepancy_witness :
    (_normalize_qs_ranking (.vStr "201-250")).2.1 = some 201 ∧
    _normalize_rank_to_int (.vStr "201-250") = some 250 ∧
    (_normalize_qs_ranking (.vStr "5")).2.1 = some 5 ∧
    _normalize_rank_to_int (.vStr "=5") = some 5 := by
  have h := rank_convention_discrepancy ['2', '0', '1'] ['2', '5', '0']
    (by decide) (by decide) (by decide) (by decide) (by decide)
  refine ⟨?_, ?_, ?_, ?_⟩
  · rw [show ("201-250" : String) = (⟨['2', '0', '1'] ++ '-' :: ['2', '5', '0']⟩ : String) by decide]
    rw [h.1]; decide
  · rw [show ("201-250" : String) = (⟨['2', '0', '1'] ++ '-' :: ['2', '5', '0']⟩ : String) by decide]
    rw [h.2.1]; decide
  · rw [show ("5" : String) = (⟨['5']⟩ : String) by decide]
    rw [(h.2.2.1 ['5'] (by decide) (by decide)).1]; decide
  · rw [show ("=5" : String) = (⟨'=' :: ['5']⟩ : String) by decide]
    rw [(h.2.2.2 ['5'] (by decide) (by decide)).2]; decide

/-! ## Display-string lemmas for normalizer idempotence (claim C10) -/

theorem str_ext {s t : String} (h : s.data = t.data) : s = t := by
  cases s; cases t; cases h; rfl

theorem mk_data_eta (s : String) : (⟨s.data⟩ : String) = s := rfl

theorem intRepr_ne_nil (n : Int) : (intRepr n).data ≠ [] := by
  rcases intRepr_data n with h | ⟨_, h⟩ <;> rw [h]
  · exact natReprL_ne_nil _
  · simp

theorem intRepr_head (n : Int) :
    ∃ c t, (intRepr n).data = c :: t ∧ (c.isDigit = true ∨ c = '-') := by
  rcases intRepr_data n with h | ⟨_, h⟩ <;> rw [h]
  · cases hm : natReprL n.natAbs with
    | nil => exact absurd hm (natReprL_ne_nil _)
    | cons c t =>
      exact ⟨c, t, rfl, Or.inl (natReprL_all_digit _ c (hm ▸ List.mem_cons_self c t))⟩
  · exact ⟨'-', _, rfl, Or.inr rfl⟩

theorem lastChar_cons_of_ne_nil (a : Char) {t : List Char} (h : t ≠ []) :
    lastChar (a :: t) = lastChar t := by
  cases t with
  | nil => exact absurd rfl h
  | cons b u => rfl

theorem intRepr_last_digit (n : Int) :
    ∃ c, lastChar (intRepr n).data = some c ∧ c.isDigit = true := by
  rcases intRepr_data n with h | ⟨_, h⟩ <;> rw [h]
  · rcases lastChar_spec (natReprL n.natAbs) with habs | ⟨c, hc, hm⟩
    · exact absurd habs (natReprL_ne_nil _)
    · exact ⟨c, hc, natReprL_all_digit _ c hm⟩
  · rw [lastChar_cons_of_ne_nil '-' (natReprL_ne_nil _)]
    rcases lastChar_spec (natReprL n.natAbs) with habs | ⟨c, hc, hm⟩
    · exact absurd habs (natReprL_ne_nil _)
    · exact ⟨c, hc, natReprL_all_digit _ c hm⟩

theorem pyStrip_intRepr (n : Int) : pyStrip (intRepr n) = intRepr n :=
  pyStrip_eq_self_of_all (intRepr_not_space n)

theorem pyIntL_nonneg_of_no_hyphen {l : List Char} (h : '-' ∉ l) {n : Int}
    (he : pyIntL l = some n) : 0 ≤ n := by
  cases l with
  | nil => cases he
  | cons c rest =>
    rw [pyIntL] at he
    split at he
    · split at he
      · cases he; exact Int.ofNat_nonneg _
      · cases he
    · split at he
      · rename_i hplus hc
        exact absurd (hc ▸ List.mem_cons_self c rest) h
      · split at he
        · cases he; exact Int.ofNat_nonneg _
        · cases he

theorem pyInt_nonneg_of_no_hyphen {s : String} (h : '-' ∉ s.data) {n : Int}
    (he : pyInt s = some n) : 0 ≤ n := by
  rw [pyInt] at he
  exact pyIntL_nonneg_of_no_hyphen (fun hm => h (mem_pyStripL hm)) he

theorem intRepr_nonneg_eq {n : Int} (h : 0 ≤ n) : intRepr n = natRepr n.toNat := by
  match n with
  | .ofNat m => rfl
  | .negSucc m => exact absurd h (by exact Int.not_le.mpr (Int.negSucc_lt_zero m))

/-- re-running the whole normalizer on an already-stripped nonempty string
gives whatever `normStr` gives. -/
theorem qs_on_stripped (s : String) (hs : pyStrip s = s) (hne : s ≠ "") :
    _normalize_qs_ranking (.vStr s) = normStr s := by
  unfold _normalize_qs_ranking
  rw [if_neg (by simp)]
  dsimp only
  rw [show pyStr (Val.vStr s) = s from rfl, hs, if_neg hne]

/-- the normalizer on an `"=" ++ intRepr n` display. -/
theorem qs_on_eq_display (n : Int) :
    _normalize_qs_ranking (.vStr ("=" ++ intRepr n)) =
      (some ("=" ++ intRepr n), some n, some n) := by
  have hdata : ("=" ++ intRepr n).data = '=' :: (intRepr n).data := by
    rw [String.data_append]; rfl
  have hs : pyStrip ("=" ++ intRepr n) = "=" ++ intRepr n := by
    refine pyStrip_eq_self_of_all ?_
    intro c hc
    rw [hdata] at hc
    rcases List.mem_cons.mp hc with rfl | hc
    · rfl
    · exact intRepr_not_space n c hc
  have hne : ("=" ++ intRepr n) ≠ "" := by
    intro he
    have := congrArg String.data he
    rw [hdata] at this
    cases this
  rw [qs_on_stripped _ hs hne, normStr]
  rw [if_pos (by rw [startsEq.eq_def, hdata]; simp)]
  have hdrop : strDrop1 ("=" ++ intRepr n) = intRepr n := by
    rw [strDrop1, hdata]
    exact mk_data_eta _
  rw [hdrop, pyStrip_intRepr, pyInt_intRepr]

/-- the normalizer on an `intRepr n ++ "+"` display. -/
theorem qs_on_plus_display (n : Int) :
    _normalize_qs_ranking (.vStr (intRepr n ++ "+")) =
      (some (intRepr n ++ "+"), some n, Option.none) := by
  have hdata : (intRepr n ++ "+").data = (intRepr n).data ++ ['+'] := by
    rw [String.data_append]
  have hs : pyStrip (intRepr n ++ "+") = intRepr n ++ "+" := by
    refine pyStrip_eq_self_of_all ?_
    intro c hc
    rw [hdata] at hc
    rcases List.mem_append.mp hc with hc | hc
    · exact intRepr_not_space n c hc
    · rw [List.mem_singleton.mp hc]; rfl
  have hne : (intRepr n ++ "+") ≠ "" := by
    intro he
    have := congrArg String.data he
    rw [hdata] at this
    exact absurd this (by simp)
  obtain ⟨c, t, hct, hcd⟩ := intRepr_head n
  rw [qs_on_stripped _ hs hne, normStr]
  rw [if_neg (by
    rw [startsEq.eq_def, hdata, hct, List.cons_append]
    dsimp only
    have hcne : ¬ c = '=' := by
      rcases hcd with hcd | hcd
      · exact isDigit_ne_eq hcd
      · rw [hcd]; decide
    rw [decide_eq_false hcne]
    exact Bool.false_ne_true)]
  rw [if_pos (by rw [endsPlus_eq, hdata, lastChar_concat]; rfl)]
  have hdrop : strDropLast (intRepr n ++ "+") = intRepr n := by
    rw [strDropLast, hdata, List.dropLast_concat]
  rw [hdrop, pyStrip_intRepr, pyInt_intRepr]

/-- the normalizer on a band display `natRepr a ++ "-" ++ intRepr b`. -/
theorem qs_on_band_display (a : Nat) (b : Int) :
    _normalize_qs_ranking (.vStr (natRepr a ++ "-" ++ intRepr b)) =
      (some (natRepr a ++ "-" ++ intRepr b), some (Int.ofNat a), some b) := by
  have hdata : (natRepr a ++ "-" ++ intRepr b).data =
      natReprL a ++ '-' :: (intRepr b).data := by
    rw [String.data_append, String.data_append, List.append_assoc]
    rfl
  have hs : pyStrip (natRepr a ++ "-" ++ intRepr b) = natRepr a ++ "-" ++ intRepr b := by
    refine pyStrip_eq_self_of_all ?_
    intro c hc
    rw [hdata] at hc
    rcases List.mem_append.mp hc with hc | hc
    · exact isDigit_not_space (natReprL_all_digit a c hc)
    · rcases List.mem_cons.mp hc with rfl | hc
      · rfl
      · exact intRepr_not_space b c hc
  have hne : (natRepr a ++ "-" ++ intRepr b) ≠ "" := by
    intro he
    have := congrArg String.data he
    rw [hdata] at this
    exact absurd this (by simp)
  obtain ⟨c, t, hct⟩ : ∃ c t, natReprL a = c :: t := by
    cases hm : natReprL a with
    | nil => exact absurd hm (natReprL_ne_nil a)
    | cons c t => exact ⟨c, t, rfl⟩
  have hcd : c.isDigit = true := natReprL_all_digit a c (hct ▸ List.mem_cons_self c t)
  rw [qs_on_stripped _ hs hne, normStr]
  rw [if_neg (by
    rw [startsEq.eq_def, hdata, hct, List.cons_append]
    dsimp only
    rw [decide_eq_false (isDigit_ne_eq hcd)]
    exact Bool.false_ne_true)]
  rw [if_neg (by
    rw [endsPlus_eq, hdata, lastChar_append_cons,
      lastChar_cons_of_ne_nil '-' (intRepr_ne_nil b)]
    obtain ⟨d, hd, hdd⟩ := intRepr_last_digit b
    rw [hd]
    simp only [decide_eq_false (isDigit_ne_plus hdd)]
    exact Bool.false_ne_true)]
  rw [if_pos (by
    rw [show containsHyphen (natRepr a ++ "-" ++ intRepr b)
        = hasHyphen (natRepr a ++ "-" ++ intRepr b).data from rfl, hdata]
    rw [hasHyphen_of_mem (List.mem_append.mpr (Or.inr (List.mem_cons_self '-' _)))])]
  rw [hdata, splitHy_append (fun hm => isDigit_ne_hyphen (natReprL_all_digit a '-' hm) rfl) _]
  dsimp only
  have hsa : pyStrip (natRepr a) = natRepr a := pyStrip_digits (natReprL_all_digit a)
  have hia : pyInt (natRepr a) = some (Int.ofNat a) := pyInt_natRepr a
  rw [show (⟨natReprL a⟩ : String) = natRepr a from rfl, mk_data_eta,
    hsa, pyStrip_intRepr, hia, pyInt_intRepr]
  rfl

/-- the normalizer on a nonnegative plain-number display. -/
theorem qs_on_num_display {n : Int} (h : 0 ≤ n) :
    _normalize_qs_ranking (.vStr (intRepr n)) =
      (some (intRepr n), some n, some n) := by
  rw [intRepr_nonneg_eq h]
  have := qs_on_digits (natReprL_ne_nil n.toNat) (natReprL_all_digit n.toNat)
  rw [show (⟨natReprL n.toNat⟩ : String) = natRepr n.toNat from rfl] at this
  rw [this, digitsVal_natReprL]
  rw [show Int.ofNat n.toNat = n from Int.toNat_of_nonneg h]
  rw [intRepr_nonneg_eq h]

/-! ## Claim C10 — the normalizer is idempotent on its own display strings -/

/-- C10: whenever `_normalize_qs_ranking v = (some d, lo, hi)`, normalizing
the display string `d` again returns exactly `(some d, lo, hi)`; hence
re-normalizing an already-normalized rank (as `patch_unreviewed_school`
does) never changes the stored bounds. -/
theorem normalize_display_idempotent (v : Val) (d : String) (lo hi : Option Int)
    (h : _normalize_qs_ranking v = (some d, lo, hi)) :
    _normalize_qs_ranking (.vStr d) = (some d, lo, hi) := by
  unfold _normalize_qs_ranking at h
  split at h
  · exact absurd (congrArg Prod.fst h) (by simp)
  · dsimp only at h
    split at h
    · exact absurd (congrArg Prod.fst h) (by simp)
    · rename_i hv hne0
      set s := pyStrip (pyStr v) with hsdef
      have hs : pyStrip s = s := pyStrip_idem (pyStr v)
      have hne : s ≠ "" := hne0
      by_cases hstart : startsEq s = true
      · rcases hn : pyInt (pyStrip (strDrop1 s)) with _ | n <;>
          rw [normStr, if_pos hstart, hn] at h <;>
          simp only [Prod.mk.injEq, Option.some.injEq] at h <;>
          obtain ⟨h1, h2, h3⟩ := h <;> subst h1 <;> subst h2 <;> subst h3
        · rw [qs_on_stripped s hs hne, normStr, if_pos hstart, hn]
        · exact qs_on_eq_display n
      · by_cases hplus : endsPlus s = true
        · rcases hn : pyInt (pyStrip (strDropLast s)) with _ | n <;>
            rw [normStr, if_neg hstart, if_pos hplus, hn] at h <;>
            simp only [Prod.mk.injEq, Option.some.injEq] at h <;>
            obtain ⟨h1, h2, h3⟩ := h <;> subst h1 <;> subst h2 <;> subst h3
          · rw [qs_on_stripped s hs hne, normStr, if_neg hstart, if_pos hplus, hn]
          · exact qs_on_plus_display n
        · by_cases hhyph : containsHyphen s = true
          · rcases hp1 : pyInt (pyStrip ⟨(splitHy s.data).1⟩) with _ | amin <;>
              rcases hp2 : pyInt (pyStrip ⟨(splitHy s.data).2⟩) with _ | bmax <;>
              rw [normStr, if_neg hstart, if_neg hplus, if_pos hhyph, hp1, hp2] at h <;>
              simp only [Prod.mk.injEq, Option.some.injEq] at h <;>
              obtain ⟨h1, h2, h3⟩ := h <;> subst h1 <;> subst h2 <;> subst h3
            · rw [qs_on_stripped s hs hne, normStr, if_neg hstart, if_neg hplus,
                if_pos hhyph, hp1, hp2]
            · rw [qs_on_stripped s hs hne, normStr, if_neg hstart, if_neg hplus,
                if_pos hhyph, hp1, hp2]
            · rw [qs_on_stripped s hs hne, normStr, if_neg hstart, if_neg hplus,
                if_pos hhyph, hp1, hp2]
            · have ha : 0 ≤ amin := by
                refine pyInt_nonneg_of_no_hyphen ?_ hp1
                intro hm
                exact splitHy_fst_no_hyphen s.data (mem_pyStripL hm)
              rw [intRepr_nonneg_eq ha]
              have hb := qs_on_band_display amin.toNat bmax
              rw [show Int.ofNat amin.toNat = amin from Int.toNat_of_nonneg ha] at hb
              exact hb
          · rcases hn : pyInt s with _ | n <;>
              rw [normStr, if_neg hstart, if_neg hplus, if_neg hhyph, hn] at h <;>
              simp only [Prod.mk.injEq, Option.some.injEq] at h <;>
              obtain ⟨h1, h2, h3⟩ := h <;> subst h1 <;> subst h2 <;> subst h3
            · rw [qs_on_stripped s hs hne, normStr, if_neg hstart, if_neg hplus,
                if_neg hhyph, hn]
            · have ha : 0 ≤ n := by
                refine pyInt_nonneg_of_no_hyphen ?_ hn
                intro hm
                have : hasHyphen s.data = true := hasHyphen_of_mem hm
                exact hhyph this
              exact qs_on_num_display ha

/-- C10 witnessed: normalizing `"=5"`, then normalizing its display `"=5"`
again, returns the same triple. -/
theorem normalize_display_idempotent_witness :
    _normalize_qs_ranking (.vStr "=5") = (some "=5", some 5, some 5) ∧
    _normalize_qs_ranking (.vStr "=5") = (some "=5", some 5, some 5) :=
  ⟨by decide, normalize_display_idempotent (.vStr "=5") "=5" (some 5) (some 5) (by decide)⟩

/-! ## Dictionary lemmas -/

theorem dget_dset_ne (d : PyDict) (k k' : String) (v : Val) (h : k ≠ k') :
    dget (dset d k v) k' = dget d k' := by
  induction d with
  | nil => simp [dset, dget, h]
  | cons kv t ih =>
    obtain ⟨k1, v1⟩ := kv
    rw [dset]
    split
    · rename_i he
      rw [dget, dget, if_neg h, if_neg (he ▸ h)]
    · rw [dget, dget]
      split
      · rfl
      · exact ih

theorem dmem_dset_imp {d : PyDict} {k f : String} {v : Val}
    (h : dmem (dset d k v) f = true) : f = k ∨ dmem d f = true := by
  induction d with
  | nil =>
    rw [dset, dmem] at h
    simp only [Bool.or_eq_true, decide_eq_true_eq] at h
    rcases h with h | h
    · exact Or.inl h.symm
    · cases h
  | cons kv t ih =>
    obtain ⟨k1, v1⟩ := kv
    rw [dset] at h
    split at h
    · rename_i he
      rw [dmem] at h
      simp only [Bool.or_eq_true, decide_eq_true_eq] at h
      rcases h with h | h
      · exact Or.inl h.symm
      · exact Or.inr (by rw [dmem, h]; simp)
    · rw [dmem] at h
      simp only [Bool.or_eq_true, decide_eq_true_eq] at h
      rcases h with h | h
      · exact Or.inr (by rw [dmem]; simp [h])
      · rcases ih h with h | h
        · exact Or.inl h
        · exact Or.inr (by rw [dmem, h]; simp)

theorem dmem_filter_imp {p : String × Val → Bool} {d : PyDict} {f : String}
    (h : dmem (d.filter p) f = true) : dmem d f = true := by
  induction d with
  | nil => cases h
  | cons kv t ih =>
    rw [List.filter_cons] at h
    split at h
    · rw [dmem] at h
      rw [dmem]
      simp only [Bool.or_eq_true] at h ⊢
      rcases h with h | h
      · exact Or.inl h
      · exact Or.inr (ih h)
    · rw [dmem]
      simp only [Bool.or_eq_true]
      exact Or.inr (ih h)

theorem dmem_dfilter_imp {d : PyDict} {f : String}
    (h : dmem (dfilterNotNone d) f = true) : dmem d f = true :=
  dmem_filter_imp h

theorem dmem_dremove_imp {d : PyDict} {k f : String}
    (h : dmem (dremove d k) f = true) : dmem d f = true :=
  dmem_filter_imp h

theorem dget_dmerge_not_dmem {p : PyDict} {f : String} (h : dmem p f = false) :
    ∀ d : PyDict, dget (dmerge d p) f = dget d f := by
  induction p with
  | nil => intro d; rfl
  | cons kv t ih =>
    intro d
    obtain ⟨k1, v1⟩ := kv
    rw [dmem] at h
    simp only [Bool.or_eq_false_iff, decide_eq_false_iff_not] at h
    rw [dmerge, List.foldl_cons]
    rw [show List.foldl (fun acc kv => dset acc kv.1 kv.2) (dset d k1 v1) t
        = dmerge (dset d k1 v1) t from rfl]
    rw [ih h.2, dget_dset_ne _ _ _ _ h.1]

/-! ## Store lemmas -/

theorem nodup_id_inj {rows : List Row} (hwf : (rows.map Row.id).Nodup) :
    ∀ {r q : Row}, r ∈ rows → q ∈ rows → r.id = q.id → r = q := by
  induction rows with
  | nil => intro r q hr; cases hr
  | cons a t ih =>
    rw [List.map_cons, List.nodup_cons] at hwf
    intro r q hr hq hid
    rcases List.mem_cons.mp hr with hra | hrt
    · rcases List.mem_cons.mp hq with hqa | hqt
      · rw [hra, hqa]
      · subst hra
        have hmm : r.id ∈ List.map Row.id t := List.mem_map.mpr ⟨q, hqt, hid.symm⟩
        exact absurd hmm hwf.1
    · rcases List.mem_cons.mp hq with hqa | hqt
      · subst hqa
        have hmm : q.id ∈ List.map Row.id t := List.mem_map.mpr ⟨r, hrt, hid⟩
        exact absurd hmm hwf.1
      · exact ih hwf.2 hrt hqt hid

theorem mem_of_get_by_match {st : Store} {sid : Option Nat} {w n : Option String}
    {r : Row} (h : get_unreviewed_school_by_match st sid w n = some r) :
    r ∈ st.rows := by
  unfold get_unreviewed_school_by_match at h
  split at h
  · rename_i heq
    cases h
    split at heq
    · exact List.mem_of_find?_eq_some heq
    · cases heq
  · split at h
    · rename_i heq
      cases h
      split at heq
      · exact List.mem_of_find?_eq_some heq
      · cases heq
    · split at h
      · exact List.mem_of_find?_eq_some h
      · cases h

theorem mem_fillFold (ex : Row) (data : PyDict) :
    ∀ (fields : List String) (p0 : PyDict) (f : String),
      dmem (List.foldl (fillStep ex data true) p0 fields) f = true →
      dmem p0 f = true ∨
        (_is_empty_value (dget ex.fields f) = true ∧
         _is_empty_value (dget data f) = false) := by
  intro fields
  induction fields with
  | nil => exact fun p0 f h => Or.inl h
  | cons g gs ih =>
    intro p0 f h
    rw [List.foldl_cons] at h
    rcases ih _ f h with h | h
    · rw [fillStep, if_pos rfl] at h
      split at h
      · rename_i hcond
        rcases dmem_dset_imp h with rfl | h
        · rw [Bool.and_eq_true, Bool.not_eq_true'] at hcond
          exact Or.inr ⟨hcond.1, hcond.2⟩
        · exact Or.inl h
      · exact Or.inl h
    · exact Or.inr h

theorem mem_stagedScalars {ex : Row} {data : PyDict} {f : String}
    (h : dmem (stagedScalars ex data true) f = true) :
    _is_empty_value (dget ex.fields f) = true := by
  rcases mem_fillFold ex data candidate_fields [] f h with h | h
  · cases h
  · exact h.1

theorem stagedPatch_mem {ex : Row} {data : PyDict} {P : PyDict}
    (hP : stagedPatch ex data true = some P) {f : String} (hm : dmem P f = true) :
    f = "raw_data" ∨ _is_empty_value (dget ex.fields f) = true := by
  rw [stagedPatch] at hP
  split at hP
  · cases hP
  · rename_i rv heq
    rw [Option.some.injEq] at hP
    rw [← hP] at hm
    have hm1 : dmem (match (_normalize_qs_ranking (dget data "qs_ranking")).2.1 with
        | some m =>
          if (true && _is_empty_value (dget ex.fields "qs_ranking")) || !true then
            dset (stagedScalars ex data true) "qs_ranking" (.vInt m)
          else stagedScalars ex data true
        | Option.none => stagedScalars ex data true) f = true ∨ f = "raw_data" := by
      split at hm
      · rcases dmem_dset_imp hm with rfl | hm'
        · exact Or.inr rfl
        · exact Or.inl hm'
      · exact Or.inl hm
    rcases hm1 with hm1 | rfl
    · rcases hq : (_normalize_qs_ranking (dget data "qs_ranking")).2.1 with _ | m <;>
        rw [hq] at hm1
      · exact Or.inr (mem_stagedScalars hm1)
      · dsimp only at hm1
        rcases hemp : _is_empty_value (dget ex.fields "qs_ranking") with _ | _ <;>
          rw [hemp] at hm1
        · rw [if_neg (by simp)] at hm1
          exact Or.inr (mem_stagedScalars hm1)
        · rw [if_pos (by simp)] at hm1
          rcases dmem_dset_imp hm1 with rfl | hm2
          · exact Or.inr hemp
          · exact Or.inr (mem_stagedScalars hm2)
    · exact Or.inl rfl

/-- the PATCH body only writes a non-`raw_data` column `f` when `f` was
present in the updates dict; consequently a row whose `f` survives. -/
theorem patch_preserves (st : Store) (i : Nat) (u : PyDict) (f : String)
    (hwf : (st.rows.map Row.id).Nodup)
    (hfraw : f ≠ "raw_data")
    (hu : dmem u f = true → ∀ q ∈ st.rows, q.id = i → _is_empty_value (dget q.fields f) = true)
    (r : Row) (hr : r ∈ st.rows) (hne : _is_empty_value (dget r.fields f) = false)
    (r' : Row) (hr' : r' ∈ (patch_unreviewed_school st i u).2.rows) (hid : r'.id = r.id) :
    dget r'.fields f = dget r.fields f := by
  have hclose : r' ∈ st.rows → dget r'.fields f = dget r.fields f := fun h => by
    rw [nodup_id_inj hwf h hr hid]
  unfold patch_unreviewed_school at hr'
  split at hr'
  · exact hclose hr'
  · split at hr'
    · exact hclose hr'
    · dsimp only at hr'
      split at hr'
      · exact hclose hr'
      · rename_i pl heq
        split at hr'
        · exact hclose hr'
        · dsimp only at hr'
          have hplu : dmem pl f = true → dmem u f = true := by
            intro hm
            split at heq
            · rename_i hqs
              split at heq
              · rw [Option.some.injEq] at heq
                subst heq
                rcases dmem_dset_imp hm with rfl | hm1
                · exact absurd rfl hfraw
                · rcases hrk : (_normalize_qs_ranking
                      (dget (dfilterNotNone u) "qs_ranking")).2.1 with _ | m <;>
                    rw [hrk] at hm1
                  · exact dmem_dfilter_imp (dmem_dremove_imp hm1)
                  · rcases dmem_dset_imp hm1 with rfl | hm2
                    · exact dmem_dfilter_imp hqs
                    · exact dmem_dfilter_imp hm2
              · cases heq
            · split at heq
              · split at heq
                · rw [Option.some.injEq] at heq
                  subst heq
                  rcases dmem_dset_imp hm with rfl | hm1
                  · exact absurd rfl hfraw
                  · exact dmem_dfilter_imp hm1
                · rw [Option.some.injEq] at heq
                  subst heq
                  exact dmem_dfilter_imp hm
              · rw [Option.some.injEq] at heq
                subst heq
                exact dmem_dfilter_imp hm
          obtain ⟨q, hq, himg⟩ := List.mem_map.mp hr'
          by_cases hqi : (q.id == i) = true
          · rw [if_pos hqi] at himg
            subst himg
            have hqr : q = r := nodup_id_inj hwf hq hr hid
            subst hqr
            have hqi' : q.id = i := by simpa using hqi
            have hnm : dmem pl f = false := by
              rcases hd : dmem pl f
              · rfl
              · exact absurd (hu (hplu hd) q hq hqi') (by rw [hne]; simp)
            exact dget_dmerge_not_dmem hnm q.fields
          · rw [if_neg hqi] at himg
            subst himg
            exact hclose hq

/-! ## Claim C2 — fill-only-empty invariant -/

/-- C2: for every existing catalogue row whose scalar field `f` (one of
country, location, year_founded, website_url, initial, type,
confidence_score, source_url, qs_ranking) is non-empty, reconciling any
candidate carrying a different value for `f` with `fill_only_empty = true`
never changes the stored value of `f`: every row of the resulting store with
the same id still holds the old value.  (The store is well-formed: distinct
row ids, all below `nextId`.) -/
theorem fill_only_empty_invariant (st : Store) (data : PyDict) (f : String)
    (hf : f ∈ candidate_fields ∨ f = "qs_ranking")
    (hwf : (st.rows.map Row.id).Nodup)
    (hbound : ∀ q ∈ st.rows, q.id < st.nextId)
    (r : Row) (hr : r ∈ st.rows)
    (hne : _is_empty_value (dget r.fields f) = false)
    (_hdiff : dget data f ≠ dget r.fields f)
    (r' : Row) (hr' : r' ∈ (enrich_or_insert_unreviewed_school st data true).2.rows)
    (hid : r'.id = r.id) :
    dget r'.fields f = dget r.fields f := by
  have hfraw : f ≠ "raw_data" := by
    rcases hf with hf | rfl
    · simp only [candidate_fields, List.mem_cons, List.not_mem_nil, or_false] at hf
      rcases hf with rfl | rfl | rfl | rfl | rfl | rfl | rfl | rfl <;> decide
    · decide
  have hclose : r' ∈ st.rows → dget r'.fields f = dget r.fields f := fun h => by
    rw [nodup_id_inj hwf h hr hid]
  unfold enrich_or_insert_unreviewed_school at hr'
  split at hr'
  · split at hr'
    · rename_i ex hex
      split at hr'
      · exact hclose hr'
      · rename_i P hP
        split at hr'
        · dsimp only at hr'
          refine patch_preserves st ex.id P f hwf hfraw ?_ r hr hne r' hr' hid
          intro hm q hq hqi
          have hqex : q = ex :=
            nodup_id_inj hwf hq (mem_of_get_by_match hex) hqi
          rw [hqex]
          rcases stagedPatch_mem hP hm with h | h
          · exact absurd h hfraw
          · exact h
        · exact hclose hr'
    · split at hr'
      · exact hclose hr'
      · split at hr'
        · exact hclose hr'
        · dsimp only at hr'
          rcases List.mem_append.mp hr' with h | h
          · exact hclose h
          · rw [List.mem_singleton] at h
            subst h
            have := hbound r hr
            exact absurd hid (by dsimp only; omega)
  · exact hclose hr'

/-- C2 witnessed: a row with non-empty `country = "US"` keeps it when a
candidate carrying `country = "CA"` (and a new `location`) is reconciled. -/
theorem fill_only_empty_invariant_witness :
    dget (⟨0, [("name", Val.vStr "Uni Z"), ("country", Val.vStr "US"),
      ("location", Val.vStr "X")]⟩ : Row).fields "country"
    = dget (⟨0, [("name", Val.vStr "Uni Z"), ("country", Val.vStr "US")]⟩ : Row).fields
        "country" :=
  fill_only_empty_invariant
    ⟨[⟨0, [("name", .vStr "Uni Z"), ("country", .vStr "US")]⟩], 1, false, false⟩
    [("name", .vStr "Uni Z"), ("country", .vStr "CA"), ("location", .vStr "X")]
    "country" (by decide) (by decide) (by decide)
    ⟨0, [("name", .vStr "Uni Z"), ("country", .vStr "US")]⟩ (by decide) (by decide)
    (by decide)
    ⟨0, [("name", .vStr "Uni Z"), ("country", .vStr "US"), ("location", .vStr "X")]⟩
    (by decide) (by decide)

/-! ## Claim C6 — outcome on write failure -/

theorem patch_result_cases (st : Store) (i : Nat) (u : PyDict) :
    (patch_unreviewed_school st i u).1 = true ∨
    patch_unreviewed_school st i u = (false, st) := by
  unfold patch_unreviewed_school
  split
  · exact Or.inl rfl
  · split
    · exact Or.inr rfl
    · dsimp only
      split
      · exact Or.inr rfl
      · split
        · exact Or.inr rfl
        · exact Or.inl rfl

theorem patch_fail_unchanged {st : Store} {i : Nat} {u : PyDict}
    (h : (patch_unreviewed_school st i u).1 = false) :
    (patch_unreviewed_school st i u).2 = st := by
  rcases patch_result_cases st i u with hc | hc
  · rw [hc] at h; cases h
  · rw [hc]

/-- C6 counterexample: the candidate `{name: "Example", country: "US"}`
matches the stored row with id 7 and stages a non-empty patch, and the PATCH
fails (`patchFails = true`); the call returns `(None, "skipped")`, not
`(7, "skipped")` as the claim states. -/
theorem write_failure_outcome_cex :
    (enrich_or_insert_unreviewed_school
      ⟨[⟨7, [("name", .vStr "Example University")]⟩], 8, false, true⟩
      [("name", .vStr "Example"), ("country", .vStr "US")] true).1
      = (Option.none, "skipped") ∧
    get_unreviewed_school_by_match
      ⟨[⟨7, [("name", .vStr "Example University")]⟩], 8, false, true⟩
      Option.none Option.none (some "Example")
      = some ⟨7, [("name", .vStr "Example University")]⟩ ∧
    stagedPatch ⟨7, [("name", .vStr "Example University")]⟩
      [("name", .vStr "Example"), ("country", .vStr "US")] true
      = some [("country", .vStr "US")] ∧
    (Option.none : Option Nat) ≠ some 7 := by
  decide

/-- C6 amended: when a candidate matches entity `ex` and stages a non-empty
field set, the call returns `(ex.id, "enriched")` if the PATCH succeeds, and
`(None, "skipped")` — the id is dropped, not `ex.id` as the spec says — if
the PATCH fails; a failed PATCH leaves the store unchanged. -/
theorem write_failure_outcome_amended (st : Store) (data : PyDict)
    (name website_url source_url : String)
    (h1 : nameVar data = some name) (h2 : websiteVar data = some website_url)
    (h3 : sourceVar data = some source_url)
    (ex : Row)
    (hex : get_unreviewed_school_by_match st Option.none
      (optOfStr website_url) (optOfStr name) = some ex)
    (P : PyDict) (hP : stagedPatch ex data true = some P) (hne : P ≠ []) :
    ((patch_unreviewed_school st ex.id P).1 = true →
      enrich_or_insert_unreviewed_school st data true =
        ((some ex.id, "enriched"), (patch_unreviewed_school st ex.id P).2)) ∧
    ((patch_unreviewed_school st ex.id P).1 = false →
      enrich_or_insert_unreviewed_school st data true =
        ((Option.none, "skipped"), st)) := by
  constructor
  · intro hok
    unfold enrich_or_insert_unreviewed_school
    rw [h1, h2, h3]
    dsimp only
    rw [hex]
    dsimp only
    rw [hP]
    dsimp only
    rw [if_pos hne, hok]
    rfl
  · intro hfail
    unfold enrich_or_insert_unreviewed_school
    rw [h1, h2, h3]
    dsimp only
    rw [hex]
    dsimp only
    rw [hP]
    dsimp only
    rw [if_pos hne, hfail, patch_fail_unchanged hfail]
    rfl

/-- C6 amended, witnessed on the concrete failing-PATCH scenario. -/
theorem write_failure_outcome_amended_witness :
    enrich_or_insert_unreviewed_school
      ⟨[⟨7, [("name", .vStr "Example University")]⟩], 8, false, true⟩
      [("name", .vStr "Example"), ("country", .vStr "US")] true
      = ((Option.none, "skipped"),
         ⟨[⟨7, [("name", .vStr "Example University")]⟩], 8, false, true⟩) :=
  (write_failure_outcome_amended
    ⟨[⟨7, [("name", .vStr "Example University")]⟩], 8, false, true⟩
    [("name", .vStr "Example"), ("country", .vStr "US")]
    "Example" "" ""
    (by decide) (by decide) (by decide)
    ⟨7, [("name", .vStr "Example University")]⟩ (by decide)
    [("country", .vStr "US")] (by decide) (by decide)).2 (by decide)

/-! ## Lemmas for the idempotence analysis (claim C1) -/

theorem isPrefixB_refl : ∀ l : List Char, isPrefixB l l = true := by
  intro l
  induction l with
  | nil => rfl
  | cons c t ih => rw [isPrefixB, ih]; simp

theorem isSubB_self : ∀ l : List Char, isSubB l l = true := by
  intro l
  cases l with
  | nil => rfl
  | cons c t => rw [isSubB, isPrefixB_refl]; rfl

theorem containsCI_self (s : String) : containsCI s s = true := by
  rw [containsCI, isSubB_self]

theorem find?_append_none {α : Type} {p : α → Bool} {l1 : List α}
    (h : l1.find? p = Option.none) (l2 : List α) :
    (l1 ++ l2).find? p = l2.find? p := by
  induction l1 with
  | nil => rfl
  | cons a t ih =>
    rw [List.find?_cons] at h
    rw [List.cons_append, List.find?_cons]
    rcases hp : p a
    · rw [hp] at h
      exact ih h
    · rw [hp] at h
      exact Option.noConfusion h

theorem gbm_none_website {st : Store} {w : String} {n? : Option String}
    (h : get_unreviewed_school_by_match st Option.none (some w) n? = Option.none) :
    st.rows.find? (rowMatchesW w) = Option.none := by
  unfold get_unreviewed_school_by_match at h
  dsimp only at h
  rcases hf : st.rows.find? (rowMatchesW w) with _ | r
  · rfl
  · rw [hf] at h
    cases h

theorem gbm_none_name {st : Store} {n : String}
    (h : get_unreviewed_school_by_match st Option.none Option.none (some n)
      = Option.none) :
    st.rows.find? (rowMatchesN n) = Option.none := by
  unfold get_unreviewed_school_by_match at h
  dsimp only at h
  exact h

theorem gbm_none_name_of_website {st : Store} {w n : String}
    (h : get_unreviewed_school_by_match st Option.none (some w) (some n)
      = Option.none) :
    st.rows.find? (rowMatchesN n) = Option.none := by
  unfold get_unreviewed_school_by_match at h
  dsimp only at h
  rcases hf : st.rows.find? (rowMatchesW w) with _ | r <;> rw [hf] at h
  · exact h
  · cases h

theorem strippedOrRaise_vStr (s : String) :
    strippedOrRaise (Val.vStr s) = some (pyStrip s) := by
  rw [strippedOrRaise]
  split
  · rfl
  · rename_i hf
    have hs : s = "" := by simpa [pyTruthy] using hf
    rw [hs]
    rfl

theorem strippedOrRaise_stripped {v : Val} {s : String}
    (h : strippedOrRaise v = some s) : pyStrip s = s := by
  cases v
  case vStr s0 =>
    rw [strippedOrRaise_vStr, Option.some.injEq] at h
    rw [← h, pyStrip_idem]
  case none =>
    rw [show strippedOrRaise Val.none = some "" from rfl, Option.some.injEq] at h
    rw [← h]; rfl
  case dnil =>
    rw [show strippedOrRaise Val.dnil = some "" from rfl, Option.some.injEq] at h
    rw [← h]; rfl
  case lnil =>
    rw [show strippedOrRaise Val.lnil = some "" from rfl, Option.some.injEq] at h
    rw [← h]; rfl
  case dcons k v0 r0 =>
    rw [show strippedOrRaise (Val.dcons k v0 r0) = Option.none from rfl] at h
    exact Option.noConfusion h
  case lcons v0 r0 =>
    rw [show strippedOrRaise (Val.lcons v0 r0) = Option.none from rfl] at h
    exact Option.noConfusion h
  case vInt n =>
    unfold strippedOrRaise at h
    rcases ht : pyTruthy (Val.vInt n)
    · rw [ht, if_neg (by simp), Option.some.injEq] at h
      rw [← h]; rfl
    · rw [ht, if_pos rfl] at h
      exact Option.noConfusion h
  case vRat q =>
    unfold strippedOrRaise at h
    rcases ht : pyTruthy (Val.vRat q)
    · rw [ht, if_neg (by simp), Option.some.injEq] at h
      rw [← h]; rfl
    · rw [ht, if_pos rfl] at h
      exact Option.noConfusion h
  case vBool b =>
    unfold strippedOrRaise at h
    rcases ht : pyTruthy (Val.vBool b)
    · rw [ht, if_neg (by simp), Option.some.injEq] at h
      rw [← h]; rfl
    · rw [ht, if_pos rfl] at h
      exact Option.noConfusion h

theorem dget_of_dmem_false {d : PyDict} {k : String} (h : dmem d k = false) :
    dget d k = Val.none := by
  induction d with
  | nil => rfl
  | cons kv t ih =>
    obtain ⟨k1, v1⟩ := kv
    rw [dmem] at h
    simp only [Bool.or_eq_false_iff, decide_eq_false_iff_not] at h
    rw [dget, if_neg h.1]
    exact ih h.2

theorem ne_vnone_of_not_empty {v : Val} (h : _is_empty_value v = false) :
    v ≠ Val.none := by
  intro he
  rw [he] at h
  cases h

theorem dget_dfilter_of_ne_none {d : PyDict} {k : String}
    (h : dget d k ≠ Val.none) :
    dget (dfilterNotNone d) k = dget d k := by
  induction d with
  | nil => rfl
  | cons kv t ih =>
    obtain ⟨k1, v1⟩ := kv
    rw [dget] at h ⊢
    by_cases hk : k1 = k
    · rw [if_pos hk] at h ⊢
      rw [dfilterNotNone, List.filter_cons, if_pos (by simpa using h)]
      rw [dget, if_pos hk]
    · rw [if_neg hk] at h ⊢
      rw [dfilterNotNone, List.filter_cons]
      split
      · rw [dget, if_neg hk]
        exact ih h
      · exact ih h

theorem fillFold_nil (ex : Row) (data : PyDict) :
    ∀ fields : List String,
      (∀ f ∈ fields, _is_empty_value (dget data f) = true ∨
        _is_empty_value (dget ex.fields f) = false) →
      List.foldl (fillStep ex data true) [] fields = [] := by
  intro fields
  induction fields with
  | nil => intro _; rfl
  | cons g gs ih =>
    intro h
    rw [List.foldl_cons]
    have hstep : fillStep ex data true [] g = [] := by
      rw [fillStep, if_pos rfl]
      rw [if_neg ?hcond]
      case hcond =>
        rcases h g (List.mem_cons_self g gs) with hd | hd <;>
          rw [Bool.and_eq_true, Bool.not_eq_true']
        · exact fun hc => by rw [hd] at hc; cases hc.2
        · exact fun hc => by rw [hd] at hc; cases hc.1
    rw [hstep]
    exact ih (fun f hf => h f (List.mem_cons_of_mem g hf))

theorem dget_dfilter_eq_of {d : PyDict} {k : String} {v : Val} (hv : v ≠ Val.none)
    (h : dget d k = v) : dget (dfilterNotNone d) k = v := by
  rw [dget_dfilter_of_ne_none (by rw [h]; exact hv), h]

theorem isEmpty_dget_dfilter {d : PyDict} {k : String}
    (hw : _is_empty_value (dget d k) = false) :
    _is_empty_value (dget (dfilterNotNone d) k) = false := by
  rw [dget_dfilter_of_ne_none (ne_vnone_of_not_empty hw)]
  exact hw

/-- profile of the row inserted on a first sighting, under the hypotheses of
the idempotence scenario: its `name`/`website_url` keys self-match, and no
candidate field can be staged against it on a re-run. -/
theorem insertPayload_spec (data : PyDict) (name website_url source_url : String)
    (h2 : websiteVar data = some website_url)
    (h3 : sourceVar data = some source_url)
    (h4 : isStrOrNone (dget data "source_url") = true)
    (h5 : isStrOrNone (dget data "website_url") = true)
    (hrank : _normalize_qs_ranking (dget data "qs_ranking")
      = (Option.none, Option.none, Option.none))
    (hraw : pyTruthy (dget data "raw_data") = false) :
    ∃ pl0, insertPayload data name website_url source_url = some pl0 ∧
      dget pl0 "name" = .vStr name ∧
      (website_url ≠ "" → dget pl0 "website_url" = .vStr website_url) ∧
      ∀ f ∈ candidate_fields,
        _is_empty_value (dget data f) = true ∨
        _is_empty_value (dget pl0 f) = false := by
  have haug : augmentRaw
      (if dmem data "raw_data" = true then dget data "raw_data" else Val.dnil)
      Option.none Option.none Option.none = some Val.dnil := by
    unfold augmentRaw
    have hpo : pyOr (if dmem data "raw_data" = true then dget data "raw_data"
        else Val.dnil) Val.dnil = Val.dnil := by
      rcases hdm : dmem data "raw_data"
      · rw [if_neg (by simp)]
        rfl
      · rw [if_pos rfl]
        unfold pyOr
        rw [if_neg (by rw [hraw]; simp)]
    rw [hpo]
    rfl
  unfold insertPayload
  rw [hrank]
  dsimp only
  rw [haug]
  dsimp only
  refine ⟨_, rfl, ?_, ?_, ?_⟩
  · apply dget_dfilter_eq_of
    · exact fun he => Val.noConfusion he
    · rfl
  · intro hw
    apply dget_dfilter_eq_of
    · exact fun he => Val.noConfusion he
    · show (if website_url ≠ "" then Val.vStr website_url else dget data "website")
        = Val.vStr website_url
      exact if_pos hw
  · intro f hf
    simp only [candidate_fields, List.mem_cons, List.not_mem_nil, or_false] at hf
    rcases hf with rfl | rfl | rfl | rfl | rfl | rfl | rfl | rfl
    · -- year_founded
      rcases hemp : _is_empty_value (dget data "year_founded")
      · refine Or.inr ?_
        apply isEmpty_dget_dfilter
        exact hemp
      · exact Or.inl rfl
    · -- country
      rcases hemp : _is_empty_value (dget data "country")
      · refine Or.inr ?_
        apply isEmpty_dget_dfilter
        exact hemp
      · exact Or.inl rfl
    · -- location
      rcases hemp : _is_empty_value (dget data "location")
      · refine Or.inr ?_
        apply isEmpty_dget_dfilter
        exact hemp
      · exact Or.inl rfl
    · -- website_url
      by_cases hw : website_url = ""
      · refine Or.inl ?_
        rcases hwu : dget data "website_url" with
          _ | s | n | q | b | _ | ⟨k, v0, r0⟩ | _ | ⟨v0, r0⟩
        · rfl
        · rcases hst : pyTruthy (Val.vStr s)
          · have hs0 : s = "" := by simpa [pyTruthy] using hst
            rw [hs0]
            decide
          · have h2' := h2
            unfold websiteVar at h2'
            rw [hwu] at h2'
            unfold pyOr at h2'
            rw [if_pos hst, strippedOrRaise_vStr, Option.some.injEq] at h2'
            show decide (pyStrip s = "") = true
            exact decide_eq_true (by rw [h2', hw])
        all_goals (rw [hwu] at h5; exact Bool.noConfusion h5)
      · refine Or.inr ?_
        apply isEmpty_dget_dfilter
        show _is_empty_value (if website_url ≠ "" then Val.vStr website_url
          else dget data "website") = false
        rw [if_pos hw]
        have hstr : pyStrip website_url = website_url := strippedOrRaise_stripped h2
        show decide (pyStrip website_url = "") = false
        rw [hstr]
        exact decide_eq_false hw
    · -- initial
      rcases hemp : _is_empty_value (dget data "initial")
      · refine Or.inr ?_
        apply isEmpty_dget_dfilter
        exact hemp
      · exact Or.inl rfl
    · -- type
      rcases hemp : _is_empty_value (dget data "type")
      · refine Or.inr ?_
        apply isEmpty_dget_dfilter
        exact hemp
      · exact Or.inl rfl
    · -- confidence_score
      rcases hemp : _is_empty_value (dget data "confidence_score")
      · refine Or.inr ?_
        have hnn := ne_vnone_of_not_empty hemp
        have hdm : dmem data "confidence_score" = true := by
          rcases hd : dmem data "confidence_score"
          · exact absurd (dget_of_dmem_false hd) hnn
          · rfl
        apply isEmpty_dget_dfilter
        show _is_empty_value (if dmem data "confidence_score" = true
          then dget data "confidence_score" else Val.vRat 0) = false
        rw [if_pos hdm]
        exact hemp
      · exact Or.inl rfl
    · -- source_url
      rcases hsu : dget data "source_url" with
        _ | s | n | q | b | _ | ⟨k, v0, r0⟩ | _ | ⟨v0, r0⟩
      · exact Or.inl rfl
      · have h3' := h3
        unfold sourceVar at h3'
        rw [hsu, strippedOrRaise_vStr, Option.some.injEq] at h3'
        by_cases hpe : pyStrip s = ""
        · refine Or.inl ?_
          show decide (pyStrip s = "") = true
          exact decide_eq_true hpe
        · refine Or.inr ?_
          apply isEmpty_dget_dfilter
          show decide (pyStrip source_url = "") = false
          rw [← h3', pyStrip_idem]
          exact decide_eq_false hpe
      all_goals (rw [hsu] at h4; exact Bool.noConfusion h4)

/-! ## Claim C1 — idempotence of reconciliation -/

/-- C1 counterexample: reconciling the same candidate twice is not
`"inserted"` then `"skipped"` in general.  A candidate carrying a parseable
rank (`"=5"`) is `"inserted"` on the first call, but the second call stages a
non-empty patch (the rank display/bounds are re-added to `raw_data`
unconditionally), so it reports `"enriched"`, not `"skipped"`. -/
theorem reconcile_idempotence_cex :
    (enrich_or_insert_unreviewed_school ⟨[], 0, false, false⟩
      [("name", .vStr "A"), ("website_url", .vStr "w"),
       ("qs_ranking", .vStr "=5")] true).1.2 = "inserted" ∧
    (enrich_or_insert_unreviewed_school
      (enrich_or_insert_unreviewed_school ⟨[], 0, false, false⟩
        [("name", .vStr "A"), ("website_url", .vStr "w"),
         ("qs_ranking", .vStr "=5")] true).2
      [("name", .vStr "A"), ("website_url", .vStr "w"),
       ("qs_ranking", .vStr "=5")] true).1.2 = "enriched" := by
  decide

/-- C1 amended: for a candidate with string-or-absent `website_url` and
`source_url`, a non-empty stripped website, no parseable rank and falsy
`raw_data`, reconciled twice from a store state it does not match and whose
POST succeeds: the first call returns `(new_id, "inserted")`, and the second
call against the resulting store returns `(new_id, "skipped")` and leaves the
store — hence the entity's field set — unchanged. -/
theorem reconcile_idempotence_amended
    (st : Store) (data : PyDict) (name website_url source_url : String)
    (h1 : nameVar data = some name)
    (h2 : websiteVar data = some website_url)
    (h3 : sourceVar data = some source_url)
    (h4 : isStrOrNone (dget data "source_url") = true)
    (h5 : isStrOrNone (dget data "website_url") = true)
    (hweb : website_url ≠ "")
    (hrank : _normalize_qs_ranking (dget data "qs_ranking")
      = (Option.none, Option.none, Option.none))
    (hraw : pyTruthy (dget data "raw_data") = false)
    (hins : st.insertFails = false)
    (hmatch : get_unreviewed_school_by_match st Option.none
      (optOfStr website_url) (optOfStr name) = Option.none) :
    ∃ st1,
      enrich_or_insert_unreviewed_school st data true
        = ((some st.nextId, "inserted"), st1) ∧
      enrich_or_insert_unreviewed_school st1 data true
        = ((some st.nextId, "skipped"), st1) := by
  obtain ⟨pl0, hpl, hname, hwebf, hfill⟩ :=
    insertPayload_spec data name website_url source_url h2 h3 h4 h5 hrank hraw
  refine ⟨{ st with rows := st.rows ++ [⟨st.nextId, pl0⟩], nextId := st.nextId + 1 }, ?_, ?_⟩
  · unfold enrich_or_insert_unreviewed_school
    rw [h1, h2, h3]
    dsimp only
    rw [hmatch]
    dsimp only
    rw [hpl]
    dsimp only
    rw [hins]
    rw [if_neg (by simp)]
  · have hopt : optOfStr website_url = some website_url := by
      rw [optOfStr, if_neg hweb]
    have hmatch' := hmatch
    rw [hopt] at hmatch'
    have hfindW := gbm_none_website hmatch'
    have hnew : rowMatchesW website_url ⟨st.nextId, pl0⟩ = true := by
      unfold rowMatchesW
      dsimp only
      rw [hwebf hweb]
      exact containsCI_self website_url
    have hfind1 : (st.rows ++ [(⟨st.nextId, pl0⟩ : Row)]).find? (rowMatchesW website_url)
        = some (⟨st.nextId, pl0⟩ : Row) := by
      rw [find?_append_none hfindW]
      rw [List.find?_cons_of_pos _ hnew]
    have hgbm1 : get_unreviewed_school_by_match
        { st with rows := st.rows ++ [⟨st.nextId, pl0⟩], nextId := st.nextId + 1 }
        Option.none (some website_url) (optOfStr name)
        = some ⟨st.nextId, pl0⟩ := by
      unfold get_unreviewed_school_by_match
      dsimp only
      rw [hfind1]
    have hsc : stagedScalars ⟨st.nextId, pl0⟩ data true = [] := by
      unfold stagedScalars
      exact fillFold_nil _ data candidate_fields (fun f hf => hfill f hf)
    have haug2 : augmentRaw (dget data "raw_data")
        Option.none Option.none Option.none = some Val.dnil := by
      unfold augmentRaw
      have hpo2 : pyOr (dget data "raw_data") Val.dnil = Val.dnil := by
        unfold pyOr
        rw [if_neg (by rw [hraw]; simp)]
      rw [hpo2]
      decide
    have hsp : stagedPatch ⟨st.nextId, pl0⟩ data true = some [] := by
      unfold stagedPatch
      rw [hrank]
      dsimp only
      rw [haug2]
      dsimp only
      show some (stagedScalars ⟨st.nextId, pl0⟩ data true) = some []
      rw [hsc]
    unfold enrich_or_insert_unreviewed_school
    rw [h1, h2, h3]
    dsimp only
    rw [hopt, hgbm1]
    dsimp only
    rw [hsp]
    dsimp only
    rw [if_neg (by simp)]

/-- C1 amended, witnessed on a rank-free candidate against the empty store:
inserted once, then skipped with the store unchanged. -/
theorem reconcile_idempotence_amended_witness :
    ∃ st1,
      enrich_or_insert_unreviewed_school ⟨[], 0, false, false⟩
        [("name", .vStr "A"), ("website_url", .vStr "w")] true
        = ((some 0, "inserted"), st1) ∧
      enrich_or_insert_unreviewed_school st1
        [("name", .vStr "A"), ("website_url", .vStr "w")] true
        = ((some 0, "skipped"), st1) :=
  reconcile_idempotence_amended ⟨[], 0, false, false⟩
    [("name", .vStr "A"), ("website_url", .vStr "w")] "A" "w" ""
    (by decide) (by decide) (by decide) (by decide) (by decide) (by decide)
    (by decide) (by decide) (by decide) (by decide)

end Crawler
